import Mathlib

/-!
# Verification of spyne's `SimpleDictDocument` flat-dict codec

A shallow embedding of `spyne/protocol/dictdoc/simple.py`: the sparse-to-
contiguous index mapper `_s2cmi`, the frequency seeder `_fill`, the value
coercion pipeline `_to_native_values`, the decoder `simple_dict_to_object`
and the encoder `object_to_simple_dict`, together with theorems checking
the natural-language specification of the module against this embedding.

Python strings are modelled as their lists of characters (`Key`), ordered
by code point as Python orders `str`.  Python dicts are modelled as
association lists in insertion order.  The spyne type system itself
(`spyne.model`) is not part of the verified source file; the pieces of its
interface that the codec consumes are modelled from the spec and are
marked `Modelled from the spec:` in their doc comments.
-/

namespace Spyne

/-- A wire token: a value appearing in a token list of the flat dict.
`txt` is a unicode string, `raw` an undecoded byte string, `filev` an
already-native `File.Value` object (opaque identifier), `null` is Python
`None`. -/
inductive Tok where
  | txt (s : String)
  | raw (bs : List Nat)
  | filev (n : Nat)
  | null
deriving DecidableEq, Repr

/-- Category of a simple (leaf) spyne class, as tested by the
`issubclass` checks of the source: `string` for `String` subclasses,
`unicode` for `Unicode`-but-not-`String` subclasses, `file` for `File`,
`bytearray` for `ByteArray`, `other` for the rest. -/
inductive TyCat where
  | string | unicode | file | bytearray | other
deriving DecidableEq, Repr

/-- The per-class attributes the codec reads (`Attributes.min_occurs`,
`Attributes.max_occurs`, `Attributes.validate_freq`).  `max_occurs` is a
natural number; spyne's unbounded `max_occurs` is modelled by a
sufficiently large bound. -/
structure Attrs where
  min_occurs : Nat := 0
  max_occurs : Nat := 1
  validate_freq : Bool := true
deriving DecidableEq, Repr

/-- A Python string, modelled as its list of characters. -/
abbrev Key := List Char

/-- Deep embedding of a spyne class: a simple (leaf) class with a
category and attributes, a complex class with a type name and an ordered
field list, or an `Array` wrapper around an element class.  Distinct
classes are distinct `STy` values. -/
inductive STy where
  | simple (cat : TyCat) (a : Attrs)
  | complex (nm : String) (a : Attrs) (fields : List (Key × STy))
  | array (a : Attrs) (elem : STy)
deriving Repr

instance : Inhabited STy := ⟨.simple .other {}⟩

mutual

def STy.decEq : (x y : STy) → Decidable (x = y)
  | .simple c a, .simple c2 a2 =>
    if h : c = c2 ∧ a = a2 then .isTrue (by rw [h.1, h.2])
    else .isFalse (by intro he; cases he; exact h ⟨rfl, rfl⟩)
  | .complex n a fs, .complex n2 a2 fs2 =>
    if h : n = n2 ∧ a = a2 then
      match STy.decEqFields fs fs2 with
      | .isTrue hf => .isTrue (by rw [h.1, h.2, hf])
      | .isFalse hf => .isFalse (by intro he; cases he; exact hf rfl)
    else .isFalse (by intro he; cases he; exact h ⟨rfl, rfl⟩)
  | .array a e, .array a2 e2 =>
    if h : a = a2 then
      match STy.decEq e e2 with
      | .isTrue hf => .isTrue (by rw [h, hf])
      | .isFalse hf => .isFalse (by intro he; cases he; exact hf rfl)
    else .isFalse (by intro he; cases he; exact h rfl)
  | .simple _ _, .complex _ _ _ => .isFalse (by intro he; cases he)
  | .simple _ _, .array _ _ => .isFalse (by intro he; cases he)
  | .complex _ _ _, .simple _ _ => .isFalse (by intro he; cases he)
  | .complex _ _ _, .array _ _ => .isFalse (by intro he; cases he)
  | .array _ _, .simple _ _ => .isFalse (by intro he; cases he)
  | .array _ _, .complex _ _ _ => .isFalse (by intro he; cases he)

def STy.decEqFields : (xs ys : List (Key × STy)) → Decidable (xs = ys)
  | [], [] => .isTrue rfl
  | [], _ :: _ => .isFalse (by intro he; cases he)
  | _ :: _, [] => .isFalse (by intro he; cases he)
  | (n, t) :: xs, (n2, t2) :: ys =>
    if h : n = n2 then
      match STy.decEq t t2, STy.decEqFields xs ys with
      | .isTrue ht, .isTrue hl => .isTrue (by rw [h, ht, hl])
      | .isFalse ht, _ => .isFalse (by intro he; cases he; exact ht rfl)
      | _, .isFalse hl => .isFalse (by intro he; cases he; exact hl rfl)
    else .isFalse (by intro he; cases he; exact h rfl)

end

instance : DecidableEq STy := STy.decEq

/-- An instance value: a native leaf value, a complex instance (field
name to possibly-unset value, in schema order), or a list.  A list
carries the sparse-index map that `simple_dict_to_object` keeps for it
in the decoder-local `idxmap` (keyed by the Python identity of the list;
here it rides with the list, which in a tree plays the same role). -/
inductive DVal where
  | prim (t : Tok)
  | obj (fs : List (Key × Option DVal))
  | arr (imap : List (Nat × Nat)) (elems : List DVal)
deriving Repr

instance : Inhabited DVal := ⟨.prim .null⟩

mutual

def DVal.decEq : (x y : DVal) → Decidable (x = y)
  | .prim t, .prim t2 =>
    if h : t = t2 then .isTrue (by rw [h])
    else .isFalse (by intro he; cases he; exact h rfl)
  | .obj fs, .obj fs2 =>
    match DVal.decEqFields fs fs2 with
    | .isTrue hf => .isTrue (by rw [hf])
    | .isFalse hf => .isFalse (by intro he; cases he; exact hf rfl)
  | .arr m es, .arr m2 es2 =>
    if h : m = m2 then
      match DVal.decEqList es es2 with
      | .isTrue hf => .isTrue (by rw [h, hf])
      | .isFalse hf => .isFalse (by intro he; cases he; exact hf rfl)
    else .isFalse (by intro he; cases he; exact h rfl)
  | .prim _, .obj _ => .isFalse (by intro he; cases he)
  | .prim _, .arr _ _ => .isFalse (by intro he; cases he)
  | .obj _, .prim _ => .isFalse (by intro he; cases he)
  | .obj _, .arr _ _ => .isFalse (by intro he; cases he)
  | .arr _ _, .prim _ => .isFalse (by intro he; cases he)
  | .arr _ _, .obj _ => .isFalse (by intro he; cases he)

def DVal.decEqOpt : (x y : Option DVal) → Decidable (x = y)
  | none, none => .isTrue rfl
  | none, some _ => .isFalse (by intro he; cases he)
  | some _, none => .isFalse (by intro he; cases he)
  | some x, some y =>
    match DVal.decEq x y with
    | .isTrue hf => .isTrue (by rw [hf])
    | .isFalse hf => .isFalse (by intro he; cases he; exact hf rfl)

def DVal.decEqFields : (xs ys : List (Key × Option DVal)) → Decidable (xs = ys)
  | [], [] => .isTrue rfl
  | [], _ :: _ => .isFalse (by intro he; cases he)
  | _ :: _, [] => .isFalse (by intro he; cases he)
  | (n, t) :: xs, (n2, t2) :: ys =>
    if h : n = n2 then
      match DVal.decEqOpt t t2, DVal.decEqFields xs ys with
      | .isTrue ht, .isTrue hl => .isTrue (by rw [h, ht, hl])
      | .isFalse ht, _ => .isFalse (by intro he; cases he; exact ht rfl)
      | _, .isFalse hl => .isFalse (by intro he; cases he; exact hl rfl)
    else .isFalse (by intro he; cases he; exact h rfl)

def DVal.decEqList : (xs ys : List DVal) → Decidable (xs = ys)
  | [], [] => .isTrue rfl
  | [], _ :: _ => .isFalse (by intro he; cases he)
  | _ :: _, [] => .isFalse (by intro he; cases he)
  | x :: xs, y :: ys =>
    match DVal.decEq x y, DVal.decEqList xs ys with
    | .isTrue ht, .isTrue hl => .isTrue (by rw [ht, hl])
    | .isFalse ht, _ => .isFalse (by intro he; cases he; exact ht rfl)
    | _, .isFalse hl => .isFalse (by intro he; cases he; exact hl rfl)

end

instance : DecidableEq DVal := DVal.decEq

/-- A value of the dict produced by `object_to_simple_dict`: a single
leaf value (`retval[key] = subinst_eater(...)`, or the literal string
`'empty'`), or a list of leaf values (`retval[key] = l`). -/
inductive DocVal where
  | one (t : Tok)
  | many (ts : List Tok)
deriving DecidableEq, Repr

/-- The failure outcomes of the codec.  `validation` is spyne's
`ValidationError` (payload: the offending key or message source),
`notImplemented` the `NotImplementedError` for non-complex targets,
`indexError` an unguarded Python `IndexError`, `attrError` an unguarded
Python `AttributeError`, `keyError` an unguarded Python `KeyError`,
`valueError` the `ValueError` raised on an encoder key collision. -/
inductive DErr where
  | validation (k : Key)
  | notImplemented
  | indexError
  | attrError
  | keyError
  | valueError (k : Key)
deriving DecidableEq, Repr

/-! ## The sparse-to-contiguous mapping inserter `_s2cmi`

The Python function runs one loop over the dict `m` doing two independent
things: it shifts (`m[i] += 1`) every entry whose external index is `≥ nidx`,
and it computes in `nv` the maximal slot among the entries with external
index `< nidx` (starting from `-1`); afterwards it stores and returns
`nv + 1` as the slot of `nidx`.  The dict is an association list in
insertion order; the new binding `m[nidx] = nv + 1` is appended (the
caller only invokes `_s2cmi` for an index not yet in the map). -/

/-- The `m[i] += 1` half of the loop of `_s2cmi`. -/
def s2cmiShift (nidx : Nat) (m : List (Nat × Nat)) : List (Nat × Nat) :=
  m.map (fun p => if nidx ≤ p.1 then (p.1, p.2 + 1) else p)

/-- The `elif v > nv: nv = v` half of the loop of `_s2cmi`
(`nv` starts at `-1`). -/
def s2cmiMax (nidx : Nat) (m : List (Nat × Nat)) : Int :=
  m.foldl (fun nv p => if nidx ≤ p.1 then nv else max nv (p.2 : Int)) (-1)

/-- `_s2cmi(m, nidx)`: returns the updated map and the returned slot. -/
def s2cmi (m : List (Nat × Nat)) (nidx : Nat) : List (Nat × Nat) × Nat :=
  let nv := s2cmiMax nidx m
  (s2cmiShift nidx m ++ [(nidx, (nv + 1).toNat)], (nv + 1).toNat)

/-- Folding `_s2cmi` insertions over a list of external indices,
starting from the empty map. -/
def s2cmiInsertAll (ns : List Nat) : List (Nat × Nat) :=
  ns.foldl (fun m n => (s2cmi m n).1) []

/-- **C2.** Starting from an empty sparse index map, inserting external
indices 3, 4, 7 in order with `_s2cmi` yields the mapping
`{3 → 0, 4 → 1, 7 → 2}`; then inserting 5 returns slot 2 and yields
`{3 → 0, 4 → 1, 5 → 2, 7 → 3}`; then inserting 0 returns slot 0 and
yields `{0 → 0, 3 → 1, 4 → 2, 5 → 3, 7 → 4}`; then inserting 8 returns
slot 5 (an append); in each case the returned value equals the slot
stored for the inserted index. -/
theorem s2cmi_example_sequence :
    (s2cmi [] 3).2 = 0 ∧ (s2cmi [] 3).1.lookup 3 = some 0 ∧
    (s2cmi (s2cmi [] 3).1 4).2 = 1 ∧
    (s2cmiInsertAll [3, 4, 7]).Perm [(3, 0), (4, 1), (7, 2)] ∧
    (s2cmi (s2cmiInsertAll [3, 4, 7]) 5).2 = 2 ∧
    (s2cmi (s2cmiInsertAll [3, 4, 7]) 5).1.lookup 5 = some 2 ∧
    (s2cmiInsertAll [3, 4, 7, 5]).Perm [(3, 0), (4, 1), (5, 2), (7, 3)] ∧
    (s2cmi (s2cmiInsertAll [3, 4, 7, 5]) 0).2 = 0 ∧
    (s2cmi (s2cmiInsertAll [3, 4, 7, 5]) 0).1.lookup 0 = some 0 ∧
    (s2cmiInsertAll [3, 4, 7, 5, 0]).Perm
      [(0, 0), (3, 1), (4, 2), (5, 3), (7, 4)] ∧
    (s2cmi (s2cmiInsertAll [3, 4, 7, 5, 0]) 8).2 = 5 ∧
    (s2cmi (s2cmiInsertAll [3, 4, 7, 5, 0]) 8).1.lookup 8 = some 5 := by
  decide

/-! ## Rank characterization of the sparse index map

The invariant behind `_s2cmi`: after inserting a set `S` of external
indices (in any order), the map sends each `i ∈ S` to its rank in `S`,
the number of elements of `S` strictly below `i`. -/

/-- The number of elements of `S` strictly below `i`. -/
def rank (S : Finset ℕ) (i : ℕ) : ℕ := (S.filter (fun j => j < i)).card

/-- `m` represents the rank function of the index set `S`. -/
def isRankMap (S : Finset ℕ) (m : List (ℕ × ℕ)) : Prop :=
  (∀ p ∈ m, p.1 ∈ S ∧ p.2 = rank S p.1) ∧
  (∀ i ∈ S, m.lookup i = some (rank S i))

theorem lookup_mem_of_eq_some {m : List (ℕ × ℕ)} {i v : ℕ}
    (h : m.lookup i = some v) : (i, v) ∈ m := by
  induction m with
  | nil => simp at h
  | cons p rest ih =>
    obtain ⟨k, w⟩ := p
    by_cases hk : i = k
    · subst hk
      simp only [List.lookup_cons_self, Option.some.injEq] at h
      simp [h]
    · have hb : (i == k) = false := by simp [hk]
      rw [List.lookup_cons, hb] at h
      exact List.mem_cons_of_mem _ (ih h)

theorem lookup_shift (n : ℕ) (m : List (ℕ × ℕ)) (i : ℕ) :
    (s2cmiShift n m).lookup i =
      (m.lookup i).map (fun v => if n ≤ i then v + 1 else v) := by
  induction m with
  | nil => simp [s2cmiShift]
  | cons p rest ih =>
    obtain ⟨k, w⟩ := p
    have hshift : s2cmiShift n ((k, w) :: rest) =
        (if n ≤ k then (k, w + 1) else (k, w)) :: s2cmiShift n rest := by
      simp [s2cmiShift]
    by_cases hk : i = k
    · subst hk
      by_cases hn : n ≤ i
      · rw [hshift, if_pos hn]
        simp [hn]
      · rw [hshift, if_neg hn]
        simp [hn]
    · have hb : (i == k) = false := by simp [hk]
      by_cases hn : n ≤ k
      · rw [hshift, if_pos hn]
        rw [List.lookup_cons, List.lookup_cons]
        simp only [hb]
        exact ih
      · rw [hshift, if_neg hn]
        rw [List.lookup_cons, List.lookup_cons]
        simp only [hb]
        exact ih

theorem lookup_append_nat (l₁ l₂ : List (ℕ × ℕ)) (i : ℕ) :
    (l₁ ++ l₂).lookup i = ((l₁.lookup i).or (l₂.lookup i)) := by
  induction l₁ with
  | nil => simp
  | cons p rest ih =>
    obtain ⟨k, w⟩ := p
    by_cases hk : i = k
    · subst hk
      simp [List.lookup_cons_self, List.cons_append, List.lookup_cons]
    · have hb : (i == k) = false := by simp [hk]
      simp [List.cons_append, List.lookup_cons, hb, ih]

/-- Joint specification of the `nv` fold of `_s2cmi`. -/
theorem s2cmiMax_spec (n : ℕ) (m : List (ℕ × ℕ)) : ∀ acc : Int,
    (acc ≤ m.foldl (fun nv p => if n ≤ p.1 then nv else max nv (p.2 : Int)) acc) ∧
    (∀ p ∈ m, p.1 < n →
      (p.2 : Int) ≤ m.foldl (fun nv p => if n ≤ p.1 then nv else max nv (p.2 : Int)) acc) ∧
    (m.foldl (fun nv p => if n ≤ p.1 then nv else max nv (p.2 : Int)) acc = acc ∨
      ∃ p ∈ m, p.1 < n ∧
        (p.2 : Int) = m.foldl (fun nv p => if n ≤ p.1 then nv else max nv (p.2 : Int)) acc) := by
  induction m with
  | nil =>
    intro acc
    refine ⟨le_refl _, ?_, Or.inl rfl⟩
    intro p hp
    exact absurd hp (List.not_mem_nil p)
  | cons p rest ih =>
    intro acc
    obtain ⟨k, w⟩ := p
    by_cases hn : n ≤ k
    · have h := ih acc
      refine ⟨by simpa [hn] using h.1, ?_, ?_⟩
      · intro q hq hqn
        rcases List.mem_cons.mp hq with hq | hq
        · cases hq; omega
        · simpa [hn] using h.2.1 q hq hqn
      · rcases h.2.2 with h2 | ⟨q, hq, hqn, hqe⟩
        · exact Or.inl (by simpa [hn] using h2)
        · exact Or.inr ⟨q, List.mem_cons_of_mem _ hq, hqn, by simpa [hn] using hqe⟩
    · have h := ih (max acc (w : Int))
      have hkn : k < n := Nat.lt_of_not_le hn
      refine ⟨le_trans (le_max_left _ _) (by simpa [hn] using h.1), ?_, ?_⟩
      · intro q hq hqn
        rcases List.mem_cons.mp hq with hq | hq
        · cases hq
          exact le_trans (le_max_right _ _) (by simpa [hn] using h.1)
        · simpa [hn] using h.2.1 q hq hqn
      · rcases h.2.2 with h2 | ⟨q, hq, hqn, hqe⟩
        · rcases max_cases acc (w : Int) with ⟨hm, _⟩ | ⟨hm, _⟩
          · exact Or.inl (by simp [hn]; rw [h2, hm])
          · refine Or.inr ⟨(k, w), List.mem_cons_self _ _, hkn, ?_⟩
            simp [hn]; rw [h2, hm]
        · exact Or.inr ⟨q, List.mem_cons_of_mem _ hq, hqn, by simpa [hn] using hqe⟩

theorem rank_lt_rank {S : Finset ℕ} {i n : ℕ} (hi : i ∈ S) (hin : i < n) :
    rank S i < rank S n := by
  apply Finset.card_lt_card
  constructor
  · intro j hj
    simp only [Finset.mem_filter] at hj ⊢
    exact ⟨hj.1, lt_trans hj.2 hin⟩
  · intro hsub
    have : i ∈ S.filter (fun j => j < n) := Finset.mem_filter.mpr ⟨hi, hin⟩
    have := hsub this
    simp only [Finset.mem_filter] at this
    omega

theorem rank_insert_gt {S : Finset ℕ} {i n : ℕ} (hn : n ∉ S) (h : n < i) :
    rank (insert n S) i = rank S i + 1 := by
  unfold rank
  rw [Finset.filter_insert, if_pos h]
  rw [Finset.card_insert_of_not_mem]
  intro hmem
  exact hn (Finset.mem_of_mem_filter _ hmem)

theorem rank_insert_le {S : Finset ℕ} {i n : ℕ} (h : i ≤ n) :
    rank (insert n S) i = rank S i := by
  unfold rank
  rw [Finset.filter_insert, if_neg (by omega)]

theorem rank_lt_card {S : Finset ℕ} {i : ℕ} (hi : i ∈ S) : rank S i < S.card := by
  apply Finset.card_lt_card
  constructor
  · exact Finset.filter_subset _ _
  · intro hsub
    have := hsub hi
    simp only [Finset.mem_filter] at this
    omega

/-- If some element of `S` lies below `n`, the largest such element has
rank one less than `n` would get. -/
theorem exists_rank_pred {S : Finset ℕ} {n : ℕ}
    (h : (S.filter (fun j => j < n)).Nonempty) :
    ∃ i ∈ S, i < n ∧ rank S i + 1 = rank S n := by
  obtain ⟨i, himem, hmax⟩ :=
    (S.filter (fun j => j < n)).exists_max_image id h
  simp only [Finset.mem_filter] at himem
  refine ⟨i, himem.1, himem.2, ?_⟩
  have hset : S.filter (fun j => j < n) = insert i (S.filter (fun j => j < i)) := by
    ext j
    simp only [Finset.mem_insert, Finset.mem_filter]
    constructor
    · intro hj
      have hji : j ≤ i := hmax j (Finset.mem_filter.mpr hj)
      rcases Nat.lt_or_ge j i with hlt | hge
      · exact Or.inr ⟨hj.1, hlt⟩
      · exact Or.inl (le_antisymm hji hge)
    · rintro (rfl | ⟨hjS, hji⟩)
      · exact himem
      · exact ⟨hjS, lt_trans hji himem.2⟩
  have hnot : i ∉ S.filter (fun j => j < i) := by
    intro hmem
    simp only [Finset.mem_filter] at hmem
    omega
  unfold rank
  rw [hset, Finset.card_insert_of_not_mem hnot]

theorem s2cmiMax_eq {S : Finset ℕ} {m : List (ℕ × ℕ)}
    (h : isRankMap S m) (n : ℕ) : s2cmiMax n m = (rank S n : Int) - 1 := by
  unfold s2cmiMax
  obtain ⟨hpair, hlook⟩ := h
  rcases Finset.eq_empty_or_nonempty (S.filter (fun j => j < n)) with he | hne
  · have hr : rank S n = 0 := by unfold rank; rw [he]; simp
    rcases (s2cmiMax_spec n m (-1)).2.2 with h2 | ⟨q, hq, hqn, _⟩
    · rw [h2, hr]; simp
    · exfalso
      have hq1 := (hpair q hq).1
      have hmem : q.1 ∈ S.filter (fun j => j < n) :=
        Finset.mem_filter.mpr ⟨hq1, hqn⟩
      rw [he] at hmem
      exact absurd hmem (Finset.not_mem_empty _)
  · obtain ⟨i, hiS, hin, hri⟩ := exists_rank_pred hne
    have hmem : (i, rank S i) ∈ m := lookup_mem_of_eq_some (hlook i hiS)
    have hlow : (rank S i : Int) ≤
        m.foldl (fun nv p => if n ≤ p.1 then nv else max nv (p.2 : Int)) (-1) :=
      (s2cmiMax_spec n m (-1)).2.1 (i, rank S i) hmem hin
    have hup : m.foldl (fun nv p => if n ≤ p.1 then nv else max nv (p.2 : Int)) (-1) ≤
        (rank S n : Int) - 1 := by
      rcases (s2cmiMax_spec n m (-1)).2.2 with h2 | ⟨q, hq, hqn, hqe⟩
      · rw [h2]; omega
      · have hq1 := (hpair q hq).1
        have hq2 := (hpair q hq).2
        have hrr : rank S q.1 < rank S n := rank_lt_rank hq1 hqn
        have hrr2 : (rank S q.1 : Int) + 1 ≤ (rank S n : Int) := by
          exact_mod_cast hrr
        rw [← hqe, hq2]
        omega
    have hri2 : (rank S i : Int) + 1 = (rank S n : Int) := by exact_mod_cast hri
    omega

/-- The inductive step: `_s2cmi` preserves the rank invariant and
returns the rank of the inserted index. -/
theorem s2cmi_step {S : Finset ℕ} {m : List (ℕ × ℕ)}
    (h : isRankMap S m) {n : ℕ} (hn : n ∉ S) :
    isRankMap (insert n S) (s2cmi m n).1 ∧ (s2cmi m n).2 = rank S n := by
  have hmax := s2cmiMax_eq h n
  have hret : (s2cmi m n).2 = rank S n := by
    simp [s2cmi, hmax]
  obtain ⟨hpair, hlook⟩ := h
  refine ⟨⟨?_, ?_⟩, hret⟩
  · intro p hp
    simp only [s2cmi, List.mem_append, List.mem_singleton] at hp
    rcases hp with hp | hp
    · simp only [s2cmiShift, List.mem_map] at hp
      obtain ⟨q, hq, hqe⟩ := hp
      have hq1 := (hpair q hq).1
      have hq2 := (hpair q hq).2
      by_cases hle : n ≤ q.1
      · have hlt : n < q.1 := lt_of_le_of_ne hle (by rintro rfl; exact hn hq1)
        rw [if_pos hle] at hqe
        subst hqe
        refine ⟨Finset.mem_insert_of_mem hq1, ?_⟩
        show q.2 + 1 = rank (insert n S) q.1
        rw [rank_insert_gt hn hlt]
        omega
      · rw [if_neg hle] at hqe
        subst hqe
        refine ⟨Finset.mem_insert_of_mem hq1, ?_⟩
        have hr : rank (insert n S) q.1 = rank S q.1 := rank_insert_le (by omega)
        rw [hr]
        exact hq2
    · subst hp
      refine ⟨Finset.mem_insert_self _ _, ?_⟩
      show (s2cmiMax n m + 1).toNat = rank (insert n S) n
      rw [rank_insert_le (le_refl n), hmax]
      simp
  · intro i hi
    rcases Finset.mem_insert.mp hi with rfl | hiS
    · have hnone : m.lookup i = none := by
        rw [List.lookup_eq_none_iff]
        intro p hp
        have hne : i ≠ p.1 := by
          rintro rfl
          exact hn (hpair p hp).1
        simpa using hne
      have hr : rank (insert i S) i = rank S i := rank_insert_le (le_refl i)
      simp only [s2cmi, lookup_append_nat, lookup_shift, hnone]
      simp [hr, hmax]
    · have hl := hlook i hiS
      simp only [s2cmi, lookup_append_nat, lookup_shift, hl]
      by_cases hle : n ≤ i
      · have hlt : n < i := lt_of_le_of_ne hle (by rintro rfl; exact hn hiS)
        simp [hle, rank_insert_gt hn hlt]
      · have hr : rank (insert n S) i = rank S i := rank_insert_le (by omega)
        simp [hle, hr]

theorem isRankMap_empty : isRankMap ∅ [] := by
  constructor <;> simp

theorem insertAll_go (ns : List ℕ) : ∀ (S : Finset ℕ) (m : List (ℕ × ℕ)),
    isRankMap S m → (∀ i ∈ ns, i ∉ S) → ns.Nodup →
    isRankMap (S ∪ ns.toFinset) (ns.foldl (fun m n => (s2cmi m n).1) m) := by
  induction ns with
  | nil => intro S m h _ _; simpa using h
  | cons n rest ih =>
    intro S m h hdisj hnd
    have hn : n ∉ S := hdisj n (List.mem_cons_self _ _)
    have hstep := (s2cmi_step h hn).1
    have hdisj2 : ∀ i ∈ rest, i ∉ insert n S := by
      intro i hi
      simp only [Finset.mem_insert]
      push_neg
      refine ⟨?_, hdisj i (List.mem_cons_of_mem _ hi)⟩
      rintro rfl
      exact (List.nodup_cons.mp hnd).1 hi
    have hrest := ih (insert n S) (s2cmi m n).1 hstep hdisj2 (List.Nodup.of_cons hnd)
    simp only [List.foldl_cons]
    have hU : insert n S ∪ rest.toFinset = S ∪ (n :: rest).toFinset := by
      simp only [List.toFinset_cons]
      ext j
      simp only [Finset.mem_insert, Finset.mem_union]
      tauto
    rwa [hU] at hrest

/-- After inserting the distinct indices `ns` (in that arrival order),
the map is the rank map of the set of `ns`. -/
theorem insertAll_rank (ns : List ℕ) (hnd : ns.Nodup) :
    isRankMap ns.toFinset (s2cmiInsertAll ns) := by
  have := insertAll_go ns ∅ [] isRankMap_empty (by simp) hnd
  simpa [s2cmiInsertAll] using this

/-! ## Order preservation of the sparse map (C3) -/

/-- Comparison of keyed pairs by key. -/
def pairLe {κ α : Type} [LinearOrder κ] (p q : κ × α) : Prop := p.1 ≤ q.1

instance {κ α : Type} [LinearOrder κ] : DecidableRel (@pairLe κ α _) :=
  fun p q => inferInstanceAs (Decidable (p.1 ≤ q.1))

instance {κ α : Type} [LinearOrder κ] : IsTotal (κ × α) pairLe :=
  ⟨fun p q => le_total p.1 q.1⟩

instance {κ α : Type} [LinearOrder κ] : IsTrans (κ × α) pairLe :=
  ⟨fun _ _ _ h1 h2 => le_trans h1 h2⟩

/-- The number of pairs with key below `n`. -/
def countLt {κ α : Type} [LinearOrder κ] (n : κ) (l : List (κ × α)) : ℕ :=
  (l.filter (fun p => p.1 < n)).length

/-- Building the internal array the way the sparse branch of the decoder
does: each new element is inserted at the slot `_s2cmi` returns
(`ninst.insert(cidx, newval)`). -/
def buildByInsert {α : Type} (ps : List (ℕ × α)) : List α × List (ℕ × ℕ) :=
  ps.foldl (fun st p =>
    (st.1.insertIdx (s2cmi st.2 p.1).2 p.2, (s2cmi st.2 p.1).1)) ([], [])

theorem map_insertIdx {α β : Type} (f : α → β) (x : α) :
    ∀ (k : ℕ) (l : List α), (l.insertIdx k x).map f = (l.map f).insertIdx k (f x)
  | 0, l => by simp
  | k + 1, [] => by simp
  | k + 1, a :: l => by
    rw [List.insertIdx_succ_cons, List.map_cons, map_insertIdx f x k l,
      List.map_cons, List.insertIdx_succ_cons]

/-- Inserting a fresh index at position `countLt` keeps a sorted pair
list sorted and is a permutation of consing. -/
theorem insertIdx_countLt {κ α : Type} [LinearOrder κ] (n : κ) (x : α) :
    ∀ (l : List (κ × α)), l.Sorted pairLe → (∀ p ∈ l, p.1 ≠ n) →
      (l.insertIdx (countLt n l) (n, x)).Sorted pairLe ∧
      (l.insertIdx (countLt n l) (n, x)).Perm ((n, x) :: l)
  | [], _, _ => by
    constructor
    · simp [countLt, List.Sorted]
    · simp [countLt]
  | p :: rest, hs, hne => by
    obtain ⟨hhead, hrest⟩ := List.sorted_cons.mp hs
    by_cases hp : p.1 < n
    · have hcount : countLt n (p :: rest) = countLt n rest + 1 := by
        simp [countLt, List.filter_cons, hp]
      obtain ⟨ih1, ih2⟩ := insertIdx_countLt n x rest hrest
        (fun q hq => hne q (List.mem_cons_of_mem _ hq))
      rw [hcount, List.insertIdx_succ_cons]
      constructor
      · rw [List.sorted_cons]
        refine ⟨?_, ih1⟩
        intro q hq
        rcases List.mem_cons.mp (ih2.mem_iff.mp hq) with rfl | hq2
        · exact le_of_lt hp
        · exact hhead q hq2
      · exact (ih2.cons p).trans (List.Perm.swap _ _ _)
    · have hgt : n < p.1 :=
        lt_of_le_of_ne (le_of_not_lt hp)
          (Ne.symm (hne p (List.mem_cons_self _ _)))
      have hrestnil : rest.filter (fun q => q.1 < n) = [] := by
        rw [List.filter_eq_nil_iff]
        intro q hq
        have hle := hhead q hq
        simp only [pairLe] at hle
        simp only [decide_eq_true_eq]
        exact not_lt.mpr (le_of_lt (lt_of_lt_of_le hgt hle))
      have hcount : countLt n (p :: rest) = 0 := by
        simp [countLt, List.filter_cons, hp, hrestnil]
      rw [hcount, List.insertIdx_zero]
      refine ⟨?_, List.Perm.refl _⟩
      rw [List.sorted_cons]
      refine ⟨?_, hs⟩
      intro q hq
      rcases List.mem_cons.mp hq with rfl | hq2
      · exact le_of_lt hgt
      · exact le_trans (le_of_lt hgt) (hhead q hq2)

/-- Two key-sorted pair lists that are permutations of each other and
have distinct keys are equal. -/
theorem eq_of_perm_sorted_keys {κ α : Type} [LinearOrder κ] :
    ∀ (l₁ l₂ : List (κ × α)), l₁.Perm l₂ → l₁.Sorted pairLe →
      l₂.Sorted pairLe → (l₁.map Prod.fst).Nodup → l₁ = l₂
  | [], l₂, hp, _, _, _ => hp.symm.eq_nil.symm
  | p :: l₁, [], hp, _, _, _ => absurd hp.eq_nil (by simp)
  | p :: l₁, q :: l₂, hp, hs₁, hs₂, hnd => by
    obtain ⟨hh₁, ht₁⟩ := List.sorted_cons.mp hs₁
    obtain ⟨hh₂, ht₂⟩ := List.sorted_cons.mp hs₂
    have hpq : p = q := by
      rcases List.mem_cons.mp (hp.mem_iff.mpr (List.mem_cons_self q l₂))
        with h | hq1
      · exact h.symm
      · rcases List.mem_cons.mp (hp.mem_iff.mp (List.mem_cons_self p l₁))
          with h | hp2
        · exact h
        · exfalso
          have h1 : p.1 ≤ q.1 := hh₁ q hq1
          have h2 : q.1 ≤ p.1 := hh₂ p hp2
          have hk : p.1 = q.1 := le_antisymm h1 h2
          have : p.1 ∈ l₁.map Prod.fst :=
            List.mem_map.mpr ⟨q, hq1, hk.symm⟩
          exact (List.nodup_cons.mp (by simpa using hnd)).1 this
    subst hpq
    have htp : l₁.Perm l₂ := hp.cons_inv
    have := eq_of_perm_sorted_keys l₁ l₂ htp ht₁ ht₂
      (List.Nodup.of_cons (by simpa using hnd))
    rw [this]

theorem countLt_perm {κ α : Type} [LinearOrder κ] {l₁ l₂ : List (κ × α)}
    (h : l₁.Perm l₂) (n : κ) : countLt n l₁ = countLt n l₂ :=
  (h.filter _).length_eq

theorem countLt_eq_rank {α : Type} (ps : List (ℕ × α))
    (hnd : (ps.map Prod.fst).Nodup) (n : ℕ) :
    countLt n ps = rank (ps.map Prod.fst).toFinset n := by
  have hnd2 : ((ps.map Prod.fst).filter (fun i => i < n)).Nodup :=
    hnd.filter _
  have h2 : rank (ps.map Prod.fst).toFinset n =
      ((ps.map Prod.fst).filter (fun i => i < n)).length := by
    unfold rank
    rw [← List.toFinset_card_of_nodup hnd2]
    congr 1
    ext j
    simp [List.mem_filter]
  rw [h2]
  unfold countLt
  rw [List.filter_map, List.length_map]
  rfl

theorem buildByInsert_snd_go {α : Type} :
    ∀ (ps : List (ℕ × α)) (arr : List α) (m : List (ℕ × ℕ)),
      (ps.foldl (fun st p =>
          (st.1.insertIdx (s2cmi st.2 p.1).2 p.2, (s2cmi st.2 p.1).1))
        (arr, m)).2
        = (ps.map Prod.fst).foldl (fun m n => (s2cmi m n).1) m
  | [], _, _ => rfl
  | _ :: ps, arr, m => by
    simp only [List.foldl_cons, List.map_cons]
    exact buildByInsert_snd_go ps _ _

/-- The array grown through `_s2cmi` slots equals the input reordered by
ascending external index. -/
theorem buildByInsert_fst {α : Type} (ps : List (ℕ × α))
    (hnd : (ps.map Prod.fst).Nodup) :
    (buildByInsert ps).1 = (List.insertionSort pairLe ps).map Prod.snd := by
  induction ps using List.reverseRecOn with
  | nil => simp [buildByInsert]
  | append_singleton l p ih =>
    obtain ⟨n, x⟩ := p
    have hnd' : ((l.map Prod.fst) ++ [n]).Nodup := by simpa using hnd
    have hl : (l.map Prod.fst).Nodup := hnd'.of_append_left
    have hnotin : n ∉ l.map Prod.fst := by
      have := List.disjoint_of_nodup_append hnd'
      intro hmem
      exact this hmem (List.mem_singleton_self n)
    have harr := ih hl
    have hm : (buildByInsert l).2 = s2cmiInsertAll (l.map Prod.fst) :=
      buildByInsert_snd_go l [] []
    have hrm : isRankMap (l.map Prod.fst).toFinset (buildByInsert l).2 := by
      rw [hm]; exact insertAll_rank _ hl
    have hnS : n ∉ (l.map Prod.fst).toFinset := by
      simpa using hnotin
    have hslot : (s2cmi (buildByInsert l).2 n).2 =
        rank (l.map Prod.fst).toFinset n := (s2cmi_step hrm hnS).2
    have hstep : buildByInsert (l ++ [(n, x)]) =
        ((buildByInsert l).1.insertIdx (s2cmi (buildByInsert l).2 n).2 x,
          (s2cmi (buildByInsert l).2 n).1) := by
      unfold buildByInsert
      rw [List.foldl_append]
      rfl
    set L := List.insertionSort pairLe l with hL
    have hLs : L.Sorted pairLe := List.sorted_insertionSort pairLe l
    have hLp : L.Perm l := List.perm_insertionSort pairLe l
    have hLne : ∀ q ∈ L, q.1 ≠ n := by
      intro q hq
      intro he
      apply hnotin
      exact List.mem_map.mpr ⟨q, hLp.mem_iff.mp hq, he⟩
    have hcount : countLt n L = rank (l.map Prod.fst).toFinset n := by
      rw [countLt_perm hLp, countLt_eq_rank l hl]
    obtain ⟨hins_sorted, hins_perm⟩ := insertIdx_countLt n x L hLs hLne
    have hMperm : (L.insertIdx (countLt n L) (n, x)).Perm (l ++ [(n, x)]) :=
      hins_perm.trans ((hLp.cons (n, x)).trans
        (List.perm_append_singleton (n, x) l).symm)
    have hsortEq : L.insertIdx (countLt n L) (n, x) =
        List.insertionSort pairLe (l ++ [(n, x)]) := by
      apply eq_of_perm_sorted_keys
      · exact hMperm.trans (List.perm_insertionSort pairLe _).symm
      · exact hins_sorted
      · exact List.sorted_insertionSort pairLe _
      · have : ((L.insertIdx (countLt n L) (n, x)).map Prod.fst).Perm
            ((l ++ [(n, x)]).map Prod.fst) := hMperm.map Prod.fst
        exact this.nodup_iff.mpr (by simpa using hnd)
    rw [hstep]
    simp only
    rw [harr, hslot, ← hcount]
    have hmi : List.insertIdx (countLt n L) x (List.map Prod.snd L) =
        List.map Prod.snd (List.insertIdx (countLt n L) (n, x) L) :=
      (map_insertIdx Prod.snd (n, x) (countLt n L) L).symm
    rw [hmi, hsortEq]

/-- The maximal element of a nonempty index set has the top rank. -/
theorem rank_max {S : Finset ℕ} (h : S.Nonempty) :
    rank S (S.max' h) = S.card - 1 := by
  have hset : S.filter (fun j => j < S.max' h) = S.erase (S.max' h) := by
    ext j
    simp only [Finset.mem_filter, Finset.mem_erase]
    constructor
    · intro ⟨hj, hlt⟩
      exact ⟨by omega, hj⟩
    · intro ⟨hne, hj⟩
      have := S.le_max' j hj
      exact ⟨hj, by omega⟩
  unfold rank
  rw [hset, Finset.card_erase_of_mem (S.max'_mem h)]

/-- Every slot below the cardinality is attained by some index. -/
theorem rank_surj : ∀ (k : ℕ) (S : Finset ℕ), S.card = k →
    ∀ s, s < k → ∃ a ∈ S, rank S a = s := by
  intro k
  induction k with
  | zero => intro S h s hs; omega
  | succ k ih =>
    intro S hc s hs
    have hne : S.Nonempty := by
      rw [← Finset.card_pos, hc]; omega
    have herase : (S.erase (S.max' hne)).card = k := by
      rw [Finset.card_erase_of_mem (S.max'_mem hne), hc]
      omega
    have hrankm : rank S (S.max' hne) = k := by
      rw [rank_max hne, hc]
      omega
    by_cases hsk : s = k
    · exact ⟨S.max' hne, S.max'_mem hne, by rw [hrankm, hsk]⟩
    · obtain ⟨a, ha, hr⟩ := ih (S.erase (S.max' hne)) herase s (by omega)
      have haS : a ∈ S := Finset.mem_of_mem_erase ha
      have hane : a ≠ S.max' hne := Finset.ne_of_mem_erase ha
      have halt : a < S.max' hne :=
        lt_of_le_of_ne (S.le_max' a haS) hane
      have hreq : rank S a = rank (S.erase (S.max' hne)) a := by
        unfold rank
        congr 1
        ext j
        simp only [Finset.mem_filter, Finset.mem_erase]
        constructor
        · intro ⟨hj, hlt⟩
          exact ⟨⟨by omega, hj⟩, hlt⟩
        · intro ⟨⟨_, hj⟩, hlt⟩
          exact ⟨hj, hlt⟩
      exact ⟨a, haS, by rw [hreq, hr]⟩

/-- **C3.** For every sequence of distinct external indices inserted via
`_s2cmi` (in any arrival order, with arbitrary gaps), the resulting map
is an order-preserving bijection onto the dense slot range
`{0, ..., n-1}`: every inserted index is mapped to a slot below the
number of insertions, a smaller external index gets a strictly smaller
slot, every slot in the dense range is taken by exactly one index, and
an array built by inserting each new element at the returned slot is
ordered by ascending external index. -/
theorem s2cmi_order_preserving (ns : List ℕ) (hnd : ns.Nodup) :
    (∀ a ∈ ns, ∃ sa, (s2cmiInsertAll ns).lookup a = some sa ∧
        sa < ns.length) ∧
    (∀ a b sa sb, a ∈ ns → b ∈ ns → a < b →
      (s2cmiInsertAll ns).lookup a = some sa →
      (s2cmiInsertAll ns).lookup b = some sb → sa < sb) ∧
    (∀ s, s < ns.length →
      ∃! a, a ∈ ns ∧ (s2cmiInsertAll ns).lookup a = some s) ∧
    (∀ (α : Type) (ps : List (ℕ × α)), ps.map Prod.fst = ns →
      (buildByInsert ps).1 = (List.insertionSort pairLe ps).map Prod.snd) := by
  have hrm := insertAll_rank ns hnd
  have hcard : ns.toFinset.card = ns.length := List.toFinset_card_of_nodup hnd
  obtain ⟨_, hlook⟩ := hrm
  refine ⟨?_, ?_, ?_, ?_⟩
  · intro a ha
    refine ⟨rank ns.toFinset a, hlook a (by simpa using ha), ?_⟩
    rw [← hcard]
    exact rank_lt_card (by simpa using ha)
  · intro a b sa sb ha hb hab hla hlb
    rw [hlook a (by simpa using ha)] at hla
    rw [hlook b (by simpa using hb)] at hlb
    cases hla; cases hlb
    exact rank_lt_rank (by simpa using ha) hab
  · intro s hs
    obtain ⟨a, ha, hra⟩ := rank_surj ns.length ns.toFinset hcard s hs
    refine ⟨a, ⟨by simpa using ha, by rw [hlook a ha, hra]⟩, ?_⟩
    intro b ⟨hb, hlb⟩
    rw [hlook b (by simpa using hb)] at hlb
    have hrb : rank ns.toFinset b = s := by injection hlb
    rcases Nat.lt_trichotomy a b with h | h | h
    · exfalso
      have := rank_lt_rank ha h
      omega
    · exact h.symm
    · exfalso
      have := rank_lt_rank (show b ∈ ns.toFinset by simpa using hb) h
      omega
  · intro α ps hps
    have : (ps.map Prod.fst).Nodup := by rw [hps]; exact hnd
    exact buildByInsert_fst ps this

/-- Witness for C3 at the concrete insertion sequence `[2, 0]`. -/
theorem s2cmi_order_preserving_witness :
    ∃ sa, (s2cmiInsertAll [2, 0]).lookup 2 = some sa ∧ sa < 2 :=
  (s2cmi_order_preserving [2, 0] (by decide)).1 2 (by decide)

/-! ## Key strings

Flat keys are Python strings, modelled as lists of characters ordered by
code point (the order Python's `sorted` uses on `str`). -/

/-- `hier_delim.join(prefix)` with the default delimiter `'.'`. -/
def joinKey : List Key → Key
  | [] => []
  | [p] => p
  | p :: rest => p ++ '.' :: joinKey rest

/-- The decimal digit character of `n < 10`. -/
def digitChar (n : ℕ) : Char := Char.ofNat ('0'.toNat + n)

/-- The decimal digits of `n`, as written by Python's `'%d' % n`. -/
def natDigits (n : ℕ) : Key :=
  if h : n < 10 then [digitChar n]
  else natDigits (n / 10) ++ [digitChar (n % 10)]
decreasing_by exact Nat.div_lt_self (by omega) (by omega)

/-- The numeric value of a string of decimal digits (`int(...)`). -/
def digitsVal (ds : Key) : ℕ :=
  ds.foldl (fun n c => n * 10 + (c.toNat - '0'.toNat)) 0

/-- `RE_HTTP_ARRAY_INDEX.sub("", k)`: remove every `[digits]` group
from the key (the regex `r"\\[([0-9]+)]"`), as a one-pass scanner.  The
state holds the digits read since an unclosed `'['`, in reverse. -/
def reSubGo : Option Key → Key → Key
  | none, [] => []
  | none, c :: rest =>
    if c = '[' then reSubGo (some []) rest else c :: reSubGo none rest
  | some ds, [] => '[' :: ds.reverse
  | some ds, c :: rest =>
    if c.isDigit then reSubGo (some (c :: ds)) rest
    else if c = ']' ∧ ds ≠ [] then reSubGo none rest
    else if c = '[' then ('[' :: ds.reverse) ++ reSubGo (some []) rest
    else ('[' :: ds.reverse) ++ (c :: reSubGo none rest)

def reSub (k : Key) : Key := reSubGo none k

/-- `RE_HTTP_ARRAY_INDEX.findall(k)`: the bracketed decimal indices of
the key, left to right, as a one-pass scanner with the same state. -/
def findIndexesGo : Option Key → Key → List ℕ
  | none, [] => []
  | none, c :: rest =>
    if c = '[' then findIndexesGo (some []) rest else findIndexesGo none rest
  | some _, [] => []
  | some ds, c :: rest =>
    if c.isDigit then findIndexesGo (some (c :: ds)) rest
    else if c = ']' ∧ ds ≠ [] then
      digitsVal ds.reverse :: findIndexesGo none rest
    else if c = '[' then findIndexesGo (some []) rest
    else findIndexesGo none rest

def findIndexes (k : Key) : List ℕ := findIndexesGo none k

/-- Python dict lookup `d.get(k)` on an association list, deciding key
equality (first match wins). -/
def alGet {κ ν : Type} [DecidableEq κ] : List (κ × ν) → κ → Option ν
  | [], _ => none
  | (k2, v) :: rest, k => if k = k2 then some v else alGet rest k

theorem alGet_eq_lookup {κ ν : Type} [DecidableEq κ] (l : List (κ × ν)) (k : κ) :
    alGet l k = l.lookup k := by
  induction l with
  | nil => rfl
  | cons p rest ih =>
    obtain ⟨k2, v⟩ := p
    by_cases h : k = k2
    · subst h
      simp [alGet, List.lookup_cons_self]
    · have hb : (k == k2) = false := by simp [h]
      simpa [alGet, List.lookup_cons, h, hb] using ih

/-! ## Schema interface

The spyne type layer (`spyne.model`) is not part of the verified source
file; the operations the codec consumes from it are modelled from the
spec (§6). -/

/-- The class-level `Attributes` record of a class. -/
def STy.attrs : STy → Attrs
  | .simple _ a => a
  | .complex _ a _ => a
  | .array a _ => a

/-- The type name (for the qualified path in rewrapped conversion
errors). -/
def STy.typeName : STy → String
  | .complex nm _ _ => nm
  | _ => ""

def issubArray : STy → Bool
  | .array _ _ => true
  | _ => false

/-- Modelled from the spec: the protocol's attribute view
`get_cls_attrs`.  An `Array` wrapper is a multi-occurrence container
(§4.4: the empty sentinel stores an empty sequence for arrays through
the multi-occurrence assignment branch), so its reported `max_occurs`
is at least 2. -/
def get_cls_attrs : STy → Attrs
  | .simple _ a => a
  | .complex _ a _ => a
  | .array a _ => { a with max_occurs := Nat.max a.max_occurs 2 }

/-- Modelled from the spec: the hop view of a non-leaf path segment
(source lines 230-236): an `Array` is unwrapped to its element class
(`ncls, = ncls._type_info.values()`), and spyne's `Array` customizes
its element type to unbounded `max_occurs`, so an array hop reports
`max_occurs ≥ 2`; any other class reports its own `max_occurs`. -/
def hopView : STy → STy × Nat
  | .array _ e => (e, Nat.max (get_cls_attrs e).max_occurs 2)
  | t => (t, (get_cls_attrs t).max_occurs)

/-- `get_flat_type_info`: the ordered field map of a complex class
(the model has no inheritance, so it is the field list itself). -/
def get_flat_type_info : STy → List (Key × STy)
  | .complex _ _ fs => fs
  | _ => []

/-- `get_deserialization_instance` (and, for the list-valued cases the
decoder creates, the fresh empty containers): a complex instance with
every field unset. -/
def get_deserialization_instance : STy → DVal
  | .complex _ _ fs => .obj (fs.map (fun p => (p.1, none)))
  | .simple _ _ => .prim .null
  | .array _ _ => .arr [] []

/-- `getattr(cinst, k, None)`: the field's value, or `None` when the
field is unset or absent. -/
def getField (v : DVal) (k : Key) : Option DVal :=
  match v with
  | .obj fs =>
    match alGet fs k with
    | some ov => ov
    | none => none
  | _ => none

/-- Modelled from the spec: `_safe_set`, the guarded field-set
operation.  It writes the value if the class has the field (the model
has no read-only fields, so a schema field write always takes
effect). -/
def setField (v : DVal) (k : Key) (x : DVal) : DVal :=
  match v with
  | .obj fs => .obj (fs.map (fun p => if p.1 = k then (p.1, some x) else p))
  | v => v

/-- One entry of `get_simple_type_info_with_prot`: the field path from
the root, the leaf (or container) class, and the can-be-empty flag. -/
structure Member where
  path : List Key
  type : STy
  can_be_empty : Bool
deriving Repr

/-- Modelled from the spec: spyne's `Array` customizes its element type
to unbounded `max_occurs`; the member registered for an array of simple
types carries that multiplicity. -/
def bumpMO : STy → STy
  | .simple c a => .simple c { a with max_occurs := Nat.max a.max_occurs 2 }
  | t => t

mutual

/-- Modelled from the spec: `get_simple_type_info_with_prot` flattens a
complex class into a map from delimiter-joined, index-free path to
member (§3, §4.1).  Simple leaves get `can_be_empty := false`;
structured and array nodes get an entry with `can_be_empty := true` and
their children are flattened below them; an array of simple types is
registered under its own key as a multi-occurrence simple member. -/
def flattenFields (pfx : List Key) : List (Key × STy) → List (Key × Member)
  | [] => []
  | (k, t) :: rest => flattenOne pfx k t ++ flattenFields pfx rest

def flattenOne (pfx : List Key) (k : Key) : STy → List (Key × Member)
  | .simple c a =>
    [(joinKey (pfx ++ [k]), ⟨pfx ++ [k], .simple c a, false⟩)]
  | .complex nm a fs =>
    (joinKey (pfx ++ [k]), ⟨pfx ++ [k], .complex nm a fs, true⟩) ::
      flattenFields (pfx ++ [k]) fs
  | .array a e =>
    match e with
    | .simple c ea =>
      [(joinKey (pfx ++ [k]), ⟨pfx ++ [k], bumpMO (.simple c ea), false⟩)]
    | .complex nm ea fs =>
      (joinKey (pfx ++ [k]),
        ⟨pfx ++ [k], .array a (.complex nm ea fs), true⟩) ::
        flattenFields (pfx ++ [k]) fs
    | .array _ _ => []

end

/-! ## The protocol object and the externally supplied converters -/

/-- The category of a member class (simple classes only). -/
def memberCat : STy → Option TyCat
  | .simple c _ => some c
  | _ => none

/-- Modelled from the spec: `issubclass(t, String)`. -/
def issubString (t : STy) : Bool := memberCat t = some TyCat.string

/-- Modelled from the spec: `issubclass(t, Unicode)`; spyne's `String`
is itself a `Unicode` subclass. -/
def issubUnicode (t : STy) : Bool :=
  memberCat t = some TyCat.string ∨ memberCat t = some TyCat.unicode

/-- Modelled from the spec: `issubclass(t, File)`. -/
def issubFile (t : STy) : Bool := memberCat t = some TyCat.file

/-- Modelled from the spec: `issubclass(t, ByteArray)`. -/
def issubByteArray (t : STy) : Bool := memberCat t = some TyCat.bytearray

def Tok.isText : Tok → Bool
  | .txt _ => true
  | _ => false

/-- The validation mode: `None` or `SOFT_VALIDATION`. -/
inductive Validator where
  | vnone
  | soft
deriving DecidableEq, Repr

/-- Modelled from the spec: the externally supplied per-type conversion
and validation interface (§6) together with the request encoding.
`decode_enc` is `v2.decode(req_enc)` (`none` = `UnicodeDecodeError`);
`validate_string` returns `none` when the validator raises `TypeError`;
`parse` and `sanitize` are the pre-parse and post-deserialization
hooks; `from_unicode_bin` is `from_unicode` with `binary_encoding`
(its validation errors propagate with their own payload);
`from_unicode` is the generic text-to-native converter (`none` = a
`ValidationError` that the source rewraps with the qualified path). -/
structure Hooks where
  req_enc : Bool := false
  decode_enc : List Nat → Option String := fun _ => none
  validate_string : STy → Tok → Option Bool := fun _ _ => some true
  parse : Attrs → Tok → Tok := fun _ t => t
  from_unicode_bin : STy → Tok → Except Key Tok := fun _ t => .ok t
  from_unicode : STy → Tok → Option Tok := fun _ t => some t
  sanitize : Attrs → Tok → Tok := fun _ t => t
  validate_native : STy → Tok → Bool := fun _ _ => true

/-- The protocol configuration of a `SimpleDictDocument` (the
constructor's `strict_arrays`, the validator passed to
`simple_dict_to_object`, and the converter interface; `hier_delim` is
the default `'.'`). -/
structure Prot where
  strict_arrays : Bool := false
  validator : Validator := .vnone
  hooks : Hooks := {}

/-- The qualified path used when a text-conversion failure is rewrapped:
`"Validation failed for %s.%s"` with the root class's name and the
stripped key. -/
def qualifyErr (cls : STy) (k : Key) : Key :=
  cls.typeName.data ++ '.' :: k

/-- The per-token body of the loop of `_to_native_values` (source lines
98-147, in source order: conditional text-decode, raw-string validation
under soft validation, `_parse`, native conversion, `_sanitize`,
native validation under soft validation). -/
def toNativeOne (P : Prot) (cls : STy) (member : Member) (orig_k k : Key)
    (v0 : Tok) : Except DErr Tok := do
  let v1 ←
    if v0 ≠ .null ∧ P.hooks.req_enc ∧ ¬ issubString member.type ∧
        issubUnicode member.type ∧ ¬ v0.isText then
      match v0 with
      | .raw bs =>
        match P.hooks.decode_enc bs with
        | some s => pure (Tok.txt s)
        | none => throw (DErr.validation orig_k)
      | _ => throw DErr.attrError
    else pure v0
  if P.validator = .soft then
    match P.hooks.validate_string member.type v1 with
    | none => throw (DErr.validation orig_k)
    | some false => throw (DErr.validation orig_k)
    | some true => pure ()
  let cls_attrs := get_cls_attrs member.type
  let v2 := P.hooks.parse cls_attrs v1
  let native ←
    if issubFile member.type then
      match v2 with
      | .filev f => pure (Tok.filev f)
      | _ =>
        match P.hooks.from_unicode_bin member.type v2 with
        | .ok t => pure t
        | .error e => throw (DErr.validation e)
    else if issubByteArray member.type then
      match P.hooks.from_unicode_bin member.type v2 with
      | .ok t => pure t
      | .error e => throw (DErr.validation e)
    else
      match P.hooks.from_unicode member.type v2 with
      | some t => pure t
      | none => throw (DErr.validation (qualifyErr cls k))
  let native := P.hooks.sanitize cls_attrs native
  if P.validator = .soft ∧ ¬ P.hooks.validate_native member.type native then
    throw (DErr.validation orig_k)
  pure native

/-- `_to_native_values` (source lines 95-149): run the per-token body
over the token list, accumulating the natives in order. -/
def to_native_values (P : Prot) (cls : STy) (member : Member)
    (orig_k k : Key) : List Tok → Except DErr (List Tok)
  | [] => .ok []
  | v0 :: rest => do
    let n ← toNativeOne P cls member orig_k k v0
    let ns ← to_native_values P cls member orig_k k rest
    pure (n :: ns)

/-! ## The frequency table -/

/-- The key of the `frequencies` defaultdict: the tuple
`(cls, 0, ncls, nidx, ...)`, as a list of (class, index) pairs. -/
abbrev CKey := List (STy × Nat)

/-- `frequencies`: a `defaultdict(lambda: defaultdict(int))` in
insertion order. -/
abbrev Freq := List (CKey × List (Key × Nat))

/-- Insert-or-update in an association list, keeping insertion order
(the behaviour of a Python dict). -/
def alUpdate {κ ν : Type} [DecidableEq κ] (l : List (κ × ν)) (k : κ)
    (d : ν) (f : ν → ν) : List (κ × ν) :=
  match l with
  | [] => [(k, f d)]
  | (k2, v) :: rest =>
    if k = k2 then (k2, f v) :: rest else (k2, v) :: alUpdate rest k d f

/-- `frequencies[ck][k] += n`. -/
def bumpFreq (f : Freq) (ck : CKey) (k : Key) (n : Nat) : Freq :=
  alUpdate f ck [] (fun d => alUpdate d k 0 (· + n))

/-- `_fill` (source lines 65-76): seed a zero count under the frequency
key `(cls, 0)` for every field of the root class with
`min_occurs > 0`. -/
def fill (cls : STy) (f : Freq) : Freq :=
  (get_flat_type_info cls).foldl
    (fun f p =>
      if 0 < p.2.attrs.min_occurs then bumpFreq f [(cls, 0)] p.1 0 else f) f

/-- Modelled from the spec: `DictDocument._check_freq_dict` checks the
observed count of each recorded field of `cls` against the field
type's `[min_occurs, max_occurs]` bounds (§4.3); a violation raises a
validation error naming the field. -/
def check_freq_dict (cls : STy) (d : List (Key × Nat)) : Except DErr Unit :=
  d.foldlM
    (fun _ p =>
      match alGet (get_flat_type_info cls) p.1 with
      | none => pure ()
      | some t =>
        if p.2 < t.attrs.min_occurs ∨ t.attrs.max_occurs < p.2 then
          throw (DErr.validation p.1)
        else pure ()) ()

/-- The frequency validation pass (source lines 310-321): for every
recorded chain whose classes all have `validate_freq` enabled, check
the counts against the last class of the chain; a chain with any
`validate_freq`-disabled class is skipped. -/
def validateFreq (freq : Freq) : Except DErr Unit :=
  freq.foldlM
    (fun _ ckd =>
      if (ckd.1.map (fun p => (get_cls_attrs p.1).validate_freq)).all id then
        match ckd.1.getLast? with
        | some p => check_freq_dict p.1 ckd.2
        | none => pure ()
      else pure ()) ()

/-! ## Reduction lemmas for the `Except` monad, used to evaluate the
codec on concrete inputs. -/

@[simp] theorem except_bind_ok {ε α β : Type} (a : α) (f : α → Except ε β) :
    (Except.ok a : Except ε α) >>= f = f a := rfl

@[simp] theorem except_bind_err {ε α β : Type} (e : ε) (f : α → Except ε β) :
    (Except.error e : Except ε α) >>= f = Except.error e := rfl

@[simp] theorem except_map_ok {ε α β : Type} (f : α → β) (a : α) :
    f <$> (Except.ok a : Except ε α) = Except.ok (f a) := rfl

@[simp] theorem except_map_err {ε α β : Type} (f : α → β) (e : ε) :
    f <$> (Except.error e : Except ε α) = Except.error e := rfl

@[simp] theorem except_pure_eq {ε α : Type} (a : α) :
    (pure a : Except ε α) = Except.ok a := rfl

@[simp] theorem except_throw_eq {ε α : Type} (e : ε) :
    (throw e : Except ε α) = Except.error e := rfl

/-! ## The decoder `simple_dict_to_object` -/

/-- A flat dict: keys to token lists, in insertion order. -/
abbrev Doc := List (Key × List Tok)

/-- The final leaf assignment (source lines 286-308): bump the leaf's
frequency by the number of values; a multi-occurrence member
initializes the target list on first write and extends it afterwards;
a single-occurrence member assigns `value[0]` — an unguarded
`IndexError` when the value list is empty. -/
def assignLeaf (member : Member) (value : List DVal) (last : Key)
    (cinst : DVal) (cfreq : CKey) (freq : Freq) :
    Except DErr (DVal × Freq) := do
  let freq := bumpFreq freq cfreq last value.length
  let member_attrs := get_cls_attrs member.type
  if member_attrs.max_occurs > 1 then
    match getField cinst last with
    | none => pure (setField cinst last (DVal.arr [] value), freq)
    | some v =>
      match v with
      | .arr im es => pure (setField cinst last (DVal.arr im (es ++ value)), freq)
      | _ => throw DErr.attrError
  else
    match value with
    | [] => throw DErr.indexError
    | v0 :: _ => pure (setField cinst last v0, freq)

/-- The path walk of the decoder (source lines 222-308): descend along
`member.path`, materializing intermediate containers, consuming one
bracket index per multi-occurrence hop (defaulting to 0), growing
arrays by the strict or the sparse policy, and finally assigning the
value at the leaf.  The updated sub-instance is written back into its
parent (in the source the parent already aliases the mutated child). -/
def walkPath (strict : Bool) (member : Member) (value : List DVal)
    (orig_k : Key) :
    List Key → List Nat → DVal → List (Key × STy) → CKey → Freq →
      Except DErr (DVal × Freq)
  | [], _, _, _, _, _ => throw DErr.keyError
  | [last], _, cinst, _, cfreq, freq =>
    assignLeaf member value last cinst cfreq freq
  | pkey :: rest@(_ :: _), indexes, cinst, ctype_info, cfreq, freq => do
    match alGet ctype_info pkey with
    | none => throw DErr.keyError
    | some ncls0 =>
      let ninst0 := getField cinst pkey
      let hv := hopView ncls0
      let ncls := hv.1
      let mo := hv.2
      if mo > 1 then
        let nidx := match indexes with
          | [] => 0
          | i :: _ => i
        let indexes2 := match indexes with
          | [] => []
          | _ :: is => is
        match ninst0 with
        | some (.prim _) => throw DErr.attrError
        | some (.obj _) => throw DErr.attrError
        | _ =>
          let im := match ninst0 with
            | some (.arr im _) => im
            | _ => []
          let es := match ninst0 with
            | some (.arr _ es) => es
            | _ => []
          if strict then
            let st1 : List DVal × Freq :=
              if es.length = 0 then
                (es ++ [get_deserialization_instance ncls],
                  bumpFreq freq cfreq pkey 1)
              else (es, freq)
            let es1 := st1.1
            let freq1 := st1.2
            if nidx > es1.length then throw (DErr.validation orig_k)
            else
              let st2 : List DVal × Freq :=
                if nidx = es1.length then
                  (es1 ++ [get_deserialization_instance ncls],
                    bumpFreq freq1 cfreq pkey 1)
                else (es1, freq1)
              let es2 := st2.1
              let freq2 := st2.2
              match es2.get? nidx with
              | none => throw DErr.keyError
              | some child => do
                let r ← walkPath strict member value orig_k rest indexes2 child
                  (get_flat_type_info ncls) (cfreq ++ [(ncls, nidx)]) freq2
                pure (setField cinst pkey (DVal.arr im (es2.set nidx r.1)),
                  r.2)
          else
            match alGet im nidx with
            | some cidx =>
              match es.get? cidx with
              | none => throw DErr.keyError
              | some child => do
                let r ← walkPath strict member value orig_k rest indexes2 child
                  (get_flat_type_info ncls) (cfreq ++ [(ncls, nidx)]) freq
                pure (setField cinst pkey (DVal.arr im (es.set cidx r.1)),
                  r.2)
            | none =>
              let sr := s2cmi im nidx
              let es1 := es.insertIdx sr.2 (get_deserialization_instance ncls)
              let freq1 := bumpFreq freq cfreq pkey 1
              match es1.get? sr.2 with
              | none => throw DErr.keyError
              | some child => do
                let r ← walkPath strict member value orig_k rest indexes2 child
                  (get_flat_type_info ncls) (cfreq ++ [(ncls, nidx)]) freq1
                pure (setField cinst pkey (DVal.arr sr.1 (es1.set sr.2 r.1)),
                  r.2)
      else
        match ninst0 with
        | none =>
          let child := get_deserialization_instance ncls
          let freq1 := bumpFreq freq cfreq pkey 1
          let r ← walkPath strict member value orig_k rest indexes child
            (get_flat_type_info ncls) (cfreq ++ [(ncls, 0)]) freq1
          pure (setField cinst pkey r.1, r.2)
        | some child => do
          let r ← walkPath strict member value orig_k rest indexes child
            (get_flat_type_info ncls) (cfreq ++ [(ncls, 0)]) freq
          pure (setField cinst pkey r.1, r.2)

/-- Processing of one sorted flat-dict entry (source lines 183-308):
strip bracket indices, look the key up in the flattened type info
(unknown keys are discarded), handle the `'empty'` sentinel for
can-be-empty members (any other token list on such a member is
skipped), otherwise run the coercion pipeline, then walk the path and
assign. -/
def processEntry (P : Prot) (cls : STy) (sti : List (Key × Member))
    (st : DVal × Freq) (e : Key × List Tok) : Except DErr (DVal × Freq) := do
  let orig_k := e.1
  let v := e.2
  let k := reSub orig_k
  match alGet sti k with
  | none => pure st
  | some member =>
    if member.can_be_empty ∧ v ≠ [Tok.txt "empty"] then pure st
    else do
      let value : List DVal ←
        if member.can_be_empty then
          pure (if issubArray member.type then ([] : List DVal)
            else if (get_cls_attrs member.type).max_occurs > 1 then []
            else [get_deserialization_instance member.type])
        else do
          let natives ← to_native_values P cls member orig_k k v
          pure (natives.map DVal.prim)
      let indexes := findIndexes orig_k
      walkPath P.strict_arrays member value orig_k member.path indexes st.1
        (get_flat_type_info cls) [(cls, 0)] st.2

/-- `simple_dict_to_object` (source lines 151-328) for a complex target
class: seed the frequency table under soft validation, process the
entries in sorted key order, then run the frequency validation pass
under soft validation.  A non-complex target raises
`NotImplementedError`; `Any`/`AnyDict` targets and `Array` roots (which
return the document, resp. unwrap the wrapper) are outside the
modelled fragment. -/
def simple_dict_to_object (P : Prot) (cls : STy) (doc : Doc) :
    Except DErr DVal := do
  match cls with
  | .complex _ _ _ =>
    let freq0 : Freq := if P.validator = .soft then fill cls [] else []
    let retval := get_deserialization_instance cls
    let sti := flattenFields [] (get_flat_type_info cls)
    let sorted := List.insertionSort pairLe doc
    let st ← sorted.foldlM (processEntry P cls sti) (retval, freq0)
    if P.validator = .soft then validateFreq st.2
    pure st.1
  | _ => throw DErr.notImplemented

/-! ## The encoder `object_to_simple_dict`

The tree encoder below omits the `tags` identity guard of the source:
inductive values are trees, where no distinct path can reach the
already-visited top-level instance, so the guard never fires.  The
guard itself (and what it does on object graphs with sharing and
cycles) is modelled separately on a heap representation for claim C4. -/

/-- Python dict assignment `retval[key] = val`: replace in place, or
append when the key is new. -/
def dictSet (d : List (Key × DocVal)) (k : Key) (v : DocVal) :
    List (Key × DocVal) :=
  alUpdate d k v (fun _ => v)

/-- The default `subinst_eater` (`lambda prot, v, t: v`) applied to a
leaf instance: the native value itself; an unset leaf is `None`. -/
def eater : Option DVal → Tok
  | some (.prim t) => t
  | _ => .null

/-- `issubclass(subtype, SimpleModel)`. -/
def isSimpleModel : STy → Bool
  | .simple _ _ => true
  | _ => false

mutual

/-- `object_to_simple_dict` (source lines 330-407) on tree values.
An unset optional instance emits nothing; a complex class walks its
fields; a simple class emits one leaf entry, raising `ValueError` on a
key collision.  An `Array` class is only reached for an unset
mandatory array field and emits nothing (conforming instances never
hit this case).  `fuel` bounds the recursion depth, one unit per
recursive call of the source; `none` means the bound was hit — on
tree values any bound at least the tree's depth gives the source's
result, so the theorems below fix a sufficient bound. -/
def object_to_simple_dict (P : Prot) :
    Nat → STy → Option DVal → List (Key × DocVal) → List Key →
    Option (Except DErr (List (Key × DocVal)))
  | 0, _, _, _, _ => none
  | fuel + 1, cls, inst, retval, pfx =>
    if inst = none ∧ (get_cls_attrs cls).min_occurs = 0 then
      some (pure retval)
    else
      match cls with
      | .complex _ _ fields => o2sdFields P fuel fields inst retval pfx
      | .array _ _ => some (pure retval)
      | .simple _ _ =>
        let key := joinKey pfx
        match alGet retval key with
        | some _ => some (throw (DErr.valueError key))
        | none => some (pure (retval ++ [(key, DocVal.one (eater inst))]))
termination_by fuel _ _ _ _ => (fuel, 0, 0)

/-- The field loop of the complex branch (source lines 355-396). -/
def o2sdFields (P : Prot) (fuel : Nat) :
    List (Key × STy) → Option DVal → List (Key × DocVal) → List Key →
    Option (Except DErr (List (Key × DocVal)))
  | [], _, retval, _ => some (pure retval)
  | (k, v) :: rest, inst, retval, pfx =>
    let kpfx := pfx ++ [k]
    let subinst := inst.bind (fun i => getField i k)
    let step :=
      if (issubArray v ∨ (STy.attrs v).max_occurs > 1) ∧ subinst ≠ none then
        let subtype := match v with
          | .array _ e => e
          | _ => v
        if isSimpleModel subtype then
          match subinst with
          | some (.arr _ elems) =>
            some (pure (dictSet retval (joinKey kpfx)
              (DocVal.many (elems.map (fun sv => eater (some sv))))))
          | _ => some (throw DErr.attrError)
        else
          match subinst with
          | some (.arr _ elems) =>
            match elems with
            | [] => some (pure (dictSet retval (joinKey kpfx)
                (DocVal.one (Tok.txt "empty"))))
            | _ :: _ => o2sdElems P fuel subtype pfx k 0 elems retval
          | _ => some (throw DErr.attrError)
      else
        object_to_simple_dict P fuel v subinst retval kpfx
    match step with
    | none => none
    | some (.error e) => some (.error e)
    | some (.ok r2) => o2sdFields P fuel rest inst r2 pfx
termination_by fs _ _ _ => (fuel, 2, fs.length)

/-- The element loop of the complex-array branch (source lines
382-388): each element gets a bracket-indexed final path segment. -/
def o2sdElems (P : Prot) (fuel : Nat) (subtype : STy) (pfx : List Key)
    (k : Key) (i : Nat) :
    List DVal → List (Key × DocVal) →
    Option (Except DErr (List (Key × DocVal)))
  | [], retval => some (pure retval)
  | sv :: rest, retval =>
    match object_to_simple_dict P fuel subtype (some sv) retval
        (pfx ++ [k ++ '[' :: (natDigits i ++ [']'])]) with
    | none => none
    | some (.error e) => some (.error e)
    | some (.ok r2) => o2sdElems P fuel subtype pfx k (i + 1) rest r2
termination_by es _ => (fuel, 1, es.length)

end

mutual

/-- Erase the decoder-local sparse-index maps from a value, leaving the
observable instance. -/
def DVal.strip : DVal → DVal
  | .prim t => .prim t
  | .obj fs => .obj (DVal.stripFields fs)
  | .arr _ es => .arr [] (DVal.stripList es)

def DVal.stripFields : List (Key × Option DVal) → List (Key × Option DVal)
  | [] => []
  | (k, none) :: rest => (k, none) :: DVal.stripFields rest
  | (k, some v) :: rest => (k, some v.strip) :: DVal.stripFields rest

def DVal.stripList : List DVal → List DVal
  | [] => []
  | v :: rest => v.strip :: DVal.stripList rest

end

/-! ## Example schemas for the concrete theorems -/

def exLeaf : STy := .simple .string {}

def exElem : STy := .complex "Elem" {} [(['x'], exLeaf)]

def exArr : STy := .array {} exElem

def exC : STy := .complex "C" {} [(['y'], exLeaf)]

def exRootFields : List (Key × STy) :=
  [(['a'], exArr), (['c'], exC),
    (['m'], .simple .string { max_occurs := 9 }), (['s'], exLeaf)]

def exRoot : STy := .complex "Root" {} exRootFields

/-- **C5.** For every flat dict, `simple_dict_to_object` produces
identical output regardless of the iteration order of the input
mapping: the result depends only on the set of key/token-list pairs,
because keys are processed in sorted order of the original key
string. -/
theorem decode_iteration_order_independent (P : Prot) (cls : STy)
    (doc₁ doc₂ : Doc) (hp : doc₁.Perm doc₂)
    (hnd : (doc₁.map Prod.fst).Nodup) :
    simple_dict_to_object P cls doc₁ = simple_dict_to_object P cls doc₂ := by
  have hnd₂ : ((List.insertionSort pairLe doc₁).map Prod.fst).Nodup :=
    (((List.perm_insertionSort pairLe doc₁).map Prod.fst).nodup_iff).mpr hnd
  have hsort : List.insertionSort pairLe doc₁ =
      List.insertionSort pairLe doc₂ := by
    apply eq_of_perm_sorted_keys _ _ ?_ (List.sorted_insertionSort pairLe doc₁)
      (List.sorted_insertionSort pairLe doc₂) hnd₂
    exact (List.perm_insertionSort pairLe doc₁).trans
      (hp.trans (List.perm_insertionSort pairLe doc₂).symm)
  match cls with
  | .complex nm a fs => simp only [simple_dict_to_object, hsort]
  | .simple c a => rfl
  | .array a e => rfl

/-- Witness for C5: two iteration orders of the same two-entry dict. -/
theorem decode_iteration_order_independent_witness :
    simple_dict_to_object {} exRoot
      [(['s'], [Tok.txt "u"]), (['c', '.', 'y'], [Tok.txt "w"])] =
    simple_dict_to_object {} exRoot
      [(['c', '.', 'y'], [Tok.txt "w"]), (['s'], [Tok.txt "u"])] :=
  decode_iteration_order_independent {} exRoot _ _
    (List.Perm.swap _ _ _) (by decide)

/-- **C10.** For every decode call in which a schema-known
single-valued (`max_occurs ≤ 1`) leaf key maps to an empty token list
and the empty-sentinel branch does not apply, `simple_dict_to_object`
raises an unguarded `IndexError` from the unchecked access to the
first coerced value (`value[0]`), rather than a validation error. -/
theorem empty_token_list_index_error (P : Prot) (nm : String) (a : Attrs)
    (fs : List (Key × STy)) (k : Key) (member : Member)
    (hm : alGet (flattenFields [] fs) (reSub k) = some member)
    (hcbe : member.can_be_empty = false)
    (hmo : (get_cls_attrs member.type).max_occurs ≤ 1)
    (hpath : member.path = [reSub k]) :
    simple_dict_to_object P (.complex nm a fs) [(k, [])] =
      .error DErr.indexError := by
  have hsorted : List.insertionSort pairLe ([(k, ([] : List Tok))]) =
      [(k, ([] : List Tok))] := rfl
  have hmo2 : ¬ ((get_cls_attrs member.type).max_occurs > 1) := by omega
  simp only [simple_dict_to_object, hsorted, List.foldlM, processEntry,
    get_flat_type_info, hm, hcbe, Bool.false_eq_true, false_and, if_false,
    to_native_values, except_bind_ok, List.map_nil, hpath, walkPath,
    assignLeaf, hmo2, if_false, except_throw_eq, except_bind_err,
    ite_self]
  rfl

/-- Witness for C10: the single-valued leaf `s` of the example schema
with an empty token list. -/
theorem empty_token_list_index_error_witness :
    simple_dict_to_object {} exRoot [(['s'], [])] =
      .error DErr.indexError :=
  empty_token_list_index_error {} "Root" {} exRootFields ['s']
    ⟨[['s']], exLeaf, false⟩
    (by simp [flattenFields, flattenOne, alGet, reSub, reSubGo, joinKey,
      exRootFields, exArr, exElem, exC, exLeaf, bumpMO])
    rfl (by simp [get_cls_attrs, exLeaf]) rfl

/-- A root with a multi-occurrence structured field. -/
def exRootMO : STy := .complex "RootMO" {}
  [(['d'], .complex "D" { max_occurs := 5 } [(['z'], exLeaf)])]

/-- **C7.** During decode, if a can-be-empty (structured/array) key's
token list is exactly the single marker `"empty"`, the decoder
materializes an empty container — an empty sequence when the member is
an `Array` or has `max_occurs > 1`, or a single newly-constructed
instance for a singleton structured field — without running the
value-coercion pipeline (the result does not depend on the conversion
hooks); any other token list on such a key is ignored: the key is
skipped without error or assignment. -/
theorem empty_sentinel :
    (∀ (P : Prot) (cls : STy) (sti : List (Key × Member)) (st : DVal × Freq)
        (orig_k : Key) (v : List Tok) (member : Member),
      alGet sti (reSub orig_k) = some member → member.can_be_empty →
      v ≠ [Tok.txt "empty"] →
      processEntry P cls sti st (orig_k, v) = .ok st) ∧
    (∀ (P : Prot) (H2 : Hooks) (cls : STy) (sti : List (Key × Member))
        (st : DVal × Freq) (orig_k : Key) (member : Member),
      alGet sti (reSub orig_k) = some member → member.can_be_empty →
      processEntry P cls sti st (orig_k, [Tok.txt "empty"]) =
        processEntry { P with hooks := H2 } cls sti st
          (orig_k, [Tok.txt "empty"])) ∧
    simple_dict_to_object {} exRoot [(['a'], [Tok.txt "empty"])] =
      .ok (DVal.obj [(['a'], some (DVal.arr [] [])), (['c'], none),
        (['m'], none), (['s'], none)]) ∧
    simple_dict_to_object {} exRootMO [(['d'], [Tok.txt "empty"])] =
      .ok (DVal.obj [(['d'], some (DVal.arr [] []))]) ∧
    simple_dict_to_object {} exRoot [(['c'], [Tok.txt "empty"])] =
      .ok (DVal.obj [(['a'], none),
        (['c'], some (DVal.obj [(['y'], none)])), (['m'], none),
        (['s'], none)]) ∧
    simple_dict_to_object {} exRoot [(['c'], [Tok.txt "zz"])] =
      .ok (DVal.obj [(['a'], none), (['c'], none), (['m'], none),
        (['s'], none)]) := by
  refine ⟨?_, ?_, ?_, ?_, ?_, ?_⟩
  · intro P cls sti st orig_k v member hm hcbe hv
    simp only [processEntry, hm, hcbe, hv, true_and, ne_eq,
      not_false_iff, if_true]
    rfl
  · intro P H2 cls sti st orig_k member hm hcbe
    simp [processEntry, hm, hcbe]
  · simp +decide [simple_dict_to_object, processEntry, walkPath, assignLeaf,
      to_native_values, toNativeOne, flattenFields, flattenOne, reSub,
      reSubGo, findIndexes, findIndexesGo, natDigits, digitsVal, joinKey,
      alUpdate, alGet, bumpFreq, fill, exRoot, exRootFields, exArr, exElem,
      exC, exLeaf, get_flat_type_info, get_deserialization_instance,
      getField, setField, hopView, get_cls_attrs, validateFreq,
      check_freq_dict, memberCat, issubArray, issubString, issubUnicode,
      issubFile, issubByteArray, bumpMO, List.insertionSort,
      List.orderedInsert, qualifyErr, s2cmi, s2cmiShift, s2cmiMax, dictSet,
      eater, isSimpleModel]
  · simp +decide [simple_dict_to_object, processEntry, walkPath, assignLeaf,
      to_native_values, toNativeOne, flattenFields, flattenOne, reSub,
      reSubGo, findIndexes, findIndexesGo, natDigits, digitsVal, joinKey,
      alUpdate, alGet, bumpFreq, fill, exRootMO, exLeaf, get_flat_type_info,
      get_deserialization_instance, getField, setField, hopView,
      get_cls_attrs, validateFreq, check_freq_dict, memberCat, issubArray,
      issubString, issubUnicode, issubFile, issubByteArray, bumpMO,
      List.insertionSort, List.orderedInsert, qualifyErr, s2cmi, s2cmiShift,
      s2cmiMax, dictSet, eater, isSimpleModel]
  · simp +decide [simple_dict_to_object, processEntry, walkPath, assignLeaf,
      to_native_values, toNativeOne, flattenFields, flattenOne, reSub,
      reSubGo, findIndexes, findIndexesGo, natDigits, digitsVal, joinKey,
      alUpdate, alGet, bumpFreq, fill, exRoot, exRootFields, exArr, exElem,
      exC, exLeaf, get_flat_type_info, get_deserialization_instance,
      getField, setField, hopView, get_cls_attrs, validateFreq,
      check_freq_dict, memberCat, issubArray, issubString, issubUnicode,
      issubFile, issubByteArray, bumpMO, List.insertionSort,
      List.orderedInsert, qualifyErr, s2cmi, s2cmiShift, s2cmiMax, dictSet,
      eater, isSimpleModel]
  · simp +decide [simple_dict_to_object, processEntry, walkPath, assignLeaf,
      to_native_values, toNativeOne, flattenFields, flattenOne, reSub,
      reSubGo, findIndexes, findIndexesGo, natDigits, digitsVal, joinKey,
      alUpdate, alGet, bumpFreq, fill, exRoot, exRootFields, exArr, exElem,
      exC, exLeaf, get_flat_type_info, get_deserialization_instance,
      getField, setField, hopView, get_cls_attrs, validateFreq,
      check_freq_dict, memberCat, issubArray, issubString, issubUnicode,
      issubFile, issubByteArray, bumpMO, List.insertionSort,
      List.orderedInsert, qualifyErr, s2cmi, s2cmiShift, s2cmiMax, dictSet,
      eater, isSimpleModel]

/-- Witness for C7: a non-marker token list on the can-be-empty key
`c` leaves the state untouched. -/
theorem empty_sentinel_witness :
    processEntry {} exRoot (flattenFields [] exRootFields)
      (get_deserialization_instance exRoot, []) (['c'], [Tok.txt "zz"]) =
      .ok (get_deserialization_instance exRoot, []) :=
  empty_sentinel.1 {} exRoot (flattenFields [] exRootFields)
    (get_deserialization_instance exRoot, []) ['c'] [Tok.txt "zz"]
    ⟨[['c']], exC, true⟩
    (by simp [flattenFields, flattenOne, alGet, reSub, reSubGo, joinKey,
      exRootFields, exArr, exElem, exC, exLeaf, bumpMO])
    rfl (by decide)

/-- The flattened member for the key `a.x` of the example schema. -/
def exMemberX : Member := ⟨[['a'], ['x']], exLeaf, false⟩

/-- The leaf step of a walk to `a.x`: assigning the single value always
succeeds and bumps the leaf frequency. -/
theorem walkPath_exX_leaf (val child : DVal) (ok : Key) (idxs : List ℕ)
    (cfreq : CKey) (freq : Freq) :
    walkPath true exMemberX [val] ok [['x']] idxs child
      [(['x'], exLeaf)] cfreq freq =
      .ok (setField child ['x'] val, bumpFreq freq cfreq ['x'] 1) := by
  simp [walkPath, assignLeaf, get_cls_attrs, exMemberX, exLeaf]

/-- **C6.** Under strict-arrays mode, while walking a flat key's path,
external index 0 is auto-materialized on first touch of an array; an
external index equal to the current array length appends one new
element; and any external index strictly beyond the current array
length raises a validation error — so supplying index 2 before indices
0 and 1 exist fails — whereas the same input succeeds under sparse
mode. -/
theorem strict_arrays_policy :
    (∀ (es : List DVal) (nidx : ℕ) (val : DVal) (ok : Key),
      (nidx > (if es.length = 0 then 1 else es.length) →
        walkPath true exMemberX [val] ok [['a'], ['x']] [nidx]
          (DVal.obj [(['a'], some (DVal.arr [] es)), (['c'], none),
            (['m'], none), (['s'], none)])
          exRootFields [(exRoot, 0)] [] = .error (DErr.validation ok)) ∧
      (nidx ≤ (if es.length = 0 then 1 else es.length) →
        ∃ es2 freq2,
          walkPath true exMemberX [val] ok [['a'], ['x']] [nidx]
            (DVal.obj [(['a'], some (DVal.arr [] es)), (['c'], none),
              (['m'], none), (['s'], none)])
            exRootFields [(exRoot, 0)] [] =
            .ok (DVal.obj [(['a'], some (DVal.arr [] es2)), (['c'], none),
              (['m'], none), (['s'], none)], freq2) ∧
          es2.length = (if nidx = (if es.length = 0 then 1 else es.length)
            then (if es.length = 0 then 1 else es.length) + 1
            else (if es.length = 0 then 1 else es.length)) ∧
          1 ≤ es2.length)) ∧
    simple_dict_to_object { strict_arrays := true } exRoot
      [(['a', '[', '2', ']', '.', 'x'], [Tok.txt "v"])] =
      .error (DErr.validation ['a', '[', '2', ']', '.', 'x']) ∧
    simple_dict_to_object {} exRoot
      [(['a', '[', '2', ']', '.', 'x'], [Tok.txt "v"])] =
      .ok (DVal.obj [(['a'], some (DVal.arr [(2, 0)]
        [DVal.obj [(['x'], some (DVal.prim (Tok.txt "v")))]])),
        (['c'], none), (['m'], none), (['s'], none)]) := by
  refine ⟨?_, ?_, ?_⟩
  · intro es nidx val ok
    have hget : alGet exRootFields ['a'] = some exArr := by
      simp [exRootFields, alGet]
    constructor
    · intro hgt
      by_cases h0 : es.length = 0
      · rw [if_pos h0] at hgt
        simp only [walkPath, hget, hopView, exArr, get_cls_attrs, exElem,
          getField, alGet]
        simp [h0, hgt, List.length_append]
      · rw [if_neg h0] at hgt
        simp only [walkPath, hget, hopView, exArr, get_cls_attrs, exElem,
          getField, alGet]
        simp [h0, hgt]
    · intro hle
      by_cases h0 : es.length = 0
      · rw [if_pos h0] at hle
        have hes : es = [] := List.length_eq_zero.mp h0
        subst hes
        interval_cases nidx
        · simp only [walkPath, hget, hopView, exArr, get_cls_attrs, exElem,
            getField, alGet]
          simp [get_flat_type_info, assignLeaf, exMemberX, exLeaf,
            get_cls_attrs, bumpFreq, alUpdate, setField, alGet,
            exRootFields, List.set]
        · simp only [walkPath, hget, hopView, exArr, get_cls_attrs, exElem,
            getField, alGet]
          simp [get_flat_type_info, assignLeaf, exMemberX, exLeaf,
            get_cls_attrs, bumpFreq, alUpdate, setField, alGet,
            exRootFields, List.set]
      · rw [if_neg h0] at hle
        by_cases heq : nidx = es.length
        · have hne : ¬ nidx > es.length := by omega
          have hget2 : (es ++ [get_deserialization_instance exElem]).get? nidx =
              some (get_deserialization_instance exElem) := by
            rw [List.get?_append_right (by omega)]
            simp [heq]
          simp +decide [walkPath, hget, hopView, exArr, get_cls_attrs, exElem,
            exMemberX, exLeaf, getField, alGet, get_flat_type_info,
            assignLeaf, bumpFreq, alUpdate, setField, exRootFields,
            h0, heq, hne, hget2, List.length_set, List.length_append]
        · have hlt : nidx < es.length := by omega
          obtain ⟨child, hchild⟩ : ∃ c, es.get? nidx = some c := by
            cases hc : es.get? nidx with
            | none => exact absurd (List.get?_eq_none.mp hc) (by omega)
            | some c => exact ⟨c, rfl⟩
          have hne : ¬ nidx > es.length := by omega
          have hchild2 : es[nidx]? = some child := by
            simpa using hchild
          simp +decide [walkPath, hget, hopView, exArr, get_cls_attrs, exElem,
            exMemberX, exLeaf, getField, alGet, get_flat_type_info,
            assignLeaf, bumpFreq, alUpdate, setField, exRootFields,
            h0, heq, hne, hchild2, List.length_set]
          omega
  · simp +decide [simple_dict_to_object, processEntry, walkPath, assignLeaf,
      to_native_values, toNativeOne, flattenFields, flattenOne, reSub,
      reSubGo, findIndexes, findIndexesGo, natDigits, digitsVal, joinKey,
      alUpdate, alGet, bumpFreq, fill, exRoot, exRootFields, exArr, exElem,
      exC, exLeaf, get_flat_type_info, get_deserialization_instance,
      getField, setField, hopView, get_cls_attrs, validateFreq,
      check_freq_dict, memberCat, issubArray, issubString, issubUnicode,
      issubFile, issubByteArray, bumpMO, List.insertionSort,
      List.orderedInsert, qualifyErr, s2cmi, s2cmiShift, s2cmiMax, dictSet,
      eater, isSimpleModel]
  · simp +decide [simple_dict_to_object, processEntry, walkPath, assignLeaf,
      to_native_values, toNativeOne, flattenFields, flattenOne, reSub,
      reSubGo, findIndexes, findIndexesGo, natDigits, digitsVal, joinKey,
      alUpdate, alGet, bumpFreq, fill, exRoot, exRootFields, exArr, exElem,
      exC, exLeaf, get_flat_type_info, get_deserialization_instance,
      getField, setField, hopView, get_cls_attrs, validateFreq,
      check_freq_dict, memberCat, issubArray, issubString, issubUnicode,
      issubFile, issubByteArray, bumpMO, List.insertionSort,
      List.orderedInsert, qualifyErr, s2cmi, s2cmiShift, s2cmiMax, dictSet,
      eater, isSimpleModel]

/-- Witness for C6: with one existing element, external index 2 is
beyond the array and is rejected under strict arrays. -/
theorem strict_arrays_policy_witness :
    walkPath true exMemberX [DVal.prim (Tok.txt "w")] ['a'] [['a'], ['x']]
      [2] (DVal.obj [(['a'], some (DVal.arr [] [DVal.obj [(['x'], none)]])),
        (['c'], none), (['m'], none), (['s'], none)])
      exRootFields [(exRoot, 0)] [] = .error (DErr.validation ['a']) :=
  ((strict_arrays_policy.1 [DVal.obj [(['x'], none)]] 2
    (DVal.prim (Tok.txt "w")) ['a']).1) (by decide)

/-! ## Helper lemmas about the frequency table -/

theorem alUpdate_fresh {κ ν : Type} [DecidableEq κ] (k : κ) (d : ν)
    (g : ν → ν) : ∀ (l : List (κ × ν)), k ∉ l.map Prod.fst →
    alUpdate l k d g = l ++ [(k, g d)]
  | [], _ => rfl
  | (k2, v) :: rest, h => by
    have hne : k ≠ k2 := by
      intro he
      exact h (by simp [he])
    simp only [alUpdate, hne, if_false, List.cons_append, List.cons.injEq,
      true_and]
    exact alUpdate_fresh k d g rest (by
      intro hmem
      exact h (by simp [hmem]))

theorem alUpdate_head {κ ν : Type} [DecidableEq κ] (k : κ) (v : ν)
    (rest : List (κ × ν)) (d : ν) (g : ν → ν) :
    alUpdate ((k, v) :: rest) k d g = (k, g v) :: rest := by
  show (if k = k then (k, g v) :: rest else (k, v) :: alUpdate rest k d g) = _
  rw [if_pos rfl]

theorem alGet_map_zero (k : Key) :
    ∀ (xs : List (Key × STy)),
    alGet (xs.map (fun p => (p.1, (0 : Nat)))) k =
      (alGet xs k).map (fun _ => (0 : Nat))
  | [] => rfl
  | (k2, t) :: rest => by
    by_cases h : k = k2 <;> simp [alGet, h, alGet_map_zero k rest]

theorem alGet_filter (q : Key × STy → Bool) (k : Key) :
    ∀ (fs : List (Key × STy)), (fs.map Prod.fst).Nodup →
    alGet (fs.filter q) k =
      (match alGet fs k with
       | some t => if q (k, t) then some t else none
       | none => none)
  | [], _ => rfl
  | (k2, t) :: rest, hnd => by
    have hnd2 : (rest.map Prod.fst).Nodup := by
      simpa using (List.nodup_cons.mp (by simpa using hnd)).2
    by_cases h : k = k2
    · subst h
      have hout : k ∉ rest.map Prod.fst :=
        (List.nodup_cons.mp (by simpa using hnd)).1
      have hnone : alGet rest k = none := by
        clear hnd hnd2
        induction rest with
        | nil => rfl
        | cons p rest2 ih =>
          have hne2 : k ≠ p.1 := by
            intro he
            exact hout (by simp [he])
          simp only [alGet, hne2, if_false]
          exact ih (by
            intro hmem
            exact hout (by simp [hmem]))
      by_cases hq : q (k, t)
      · have hfe : List.filter q ((k, t) :: rest) = (k, t) :: rest.filter q := by
          simp [List.filter_cons, hq]
        rw [hfe]
        simp [alGet, hq]
      · have hfe : List.filter q ((k, t) :: rest) = rest.filter q := by
          simp [List.filter_cons, hq]
        rw [hfe, alGet_filter q k rest hnd2, hnone]
        simp [alGet, hq]
    · by_cases hq : q (k2, t)
      · have hfe : List.filter q ((k2, t) :: rest) = (k2, t) :: rest.filter q := by
          simp [List.filter_cons, hq]
        rw [hfe]
        simp only [alGet, h, if_false]
        exact alGet_filter q k rest hnd2
      · have hfe : List.filter q ((k2, t) :: rest) = rest.filter q := by
          simp [List.filter_cons, hq]
        rw [hfe]
        simp only [alGet, h, if_false]
        exact alGet_filter q k rest hnd2

/-- The single-bucket shape of the `_fill` fold, once the bucket
exists. -/
theorem fill_go_structure (ck : CKey) :
    ∀ (fs : List (Key × STy)) (seeds : List (Key × Nat)),
    (∀ p ∈ fs, p.1 ∉ seeds.map Prod.fst) → (fs.map Prod.fst).Nodup →
    fs.foldl (fun f p =>
        if 0 < p.2.attrs.min_occurs then bumpFreq f ck p.1 0 else f)
      [(ck, seeds)] =
    [(ck, seeds ++
      (fs.filter (fun p => 0 < p.2.attrs.min_occurs)).map
        (fun p => (p.1, 0)))]
  | [], seeds, _, _ => by simp
  | (k, t) :: rest, seeds, hdisj, hnd => by
    have hnd2 : (rest.map Prod.fst).Nodup := by
      simpa using (List.nodup_cons.mp (by simpa using hnd)).2
    have hknotin : k ∉ rest.map Prod.fst :=
      (List.nodup_cons.mp (by simpa using hnd)).1
    by_cases hm : 0 < t.attrs.min_occurs
    · have hbump : bumpFreq [(ck, seeds)] ck k 0 = [(ck, seeds ++ [(k, 0)])] := by
        unfold bumpFreq
        rw [alUpdate_head, alUpdate_fresh k 0 (· + 0) seeds
          (hdisj (k, t) (List.mem_cons_self _ _))]
      simp only [List.foldl_cons, hm, if_true]
      rw [hbump]
      rw [fill_go_structure ck rest (seeds ++ [(k, 0)]) ?_ hnd2]
      · simp [List.filter_cons, hm]
      · intro p hp
        simp only [List.map_append, List.mem_append]
        push_neg
        refine ⟨hdisj p (List.mem_cons_of_mem _ hp), ?_⟩
        have hpk : p.1 ≠ k := by
          intro he
          exact hknotin (he ▸ List.mem_map.mpr ⟨p, hp, rfl⟩)
        simpa using hpk
    · simp only [List.foldl_cons, hm, if_false]
      rw [fill_go_structure ck rest seeds
        (fun p hp => hdisj p (List.mem_cons_of_mem _ hp)) hnd2]
      simp [List.filter_cons, hm]

/-- The `_fill` fold from the empty table: either nothing (no mandatory
field) or a single bucket seeding every mandatory field with zero. -/
theorem fill_fold_empty (ck : CKey) :
    ∀ (gs : List (Key × STy)), (gs.map Prod.fst).Nodup →
    gs.foldl (fun f p =>
        if 0 < p.2.attrs.min_occurs then bumpFreq f ck p.1 0 else f) [] =
      (match gs.filter (fun p => 0 < p.2.attrs.min_occurs) with
       | [] => []
       | _ :: _ => [(ck,
          (gs.filter (fun p => 0 < p.2.attrs.min_occurs)).map
            (fun p => (p.1, 0)))])
  | [], _ => rfl
  | (k, t) :: rest, hnd => by
    have hnd2 : (rest.map Prod.fst).Nodup := by
      simpa using (List.nodup_cons.mp (by simpa using hnd)).2
    have hknotin : k ∉ rest.map Prod.fst :=
      (List.nodup_cons.mp (by simpa using hnd)).1
    by_cases hm : 0 < t.attrs.min_occurs
    · have hbump : bumpFreq ([] : Freq) ck k 0 = [(ck, [(k, 0)])] := by
        unfold bumpFreq
        simp [alUpdate]
      simp only [List.foldl_cons, hm, if_true]
      rw [hbump]
      rw [fill_go_structure ck rest [(k, 0)] ?_ hnd2]
      · simp [List.filter_cons, hm]
      · intro p hp
        have hpk : p.1 ≠ k := by
          intro he
          exact hknotin (he ▸ List.mem_map.mpr ⟨p, hp, rfl⟩)
        simpa using hpk
    · simp only [List.foldl_cons, hm, if_false]
      rw [fill_fold_empty ck rest hnd2]
      simp [List.filter_cons, hm]

/-- `_fill` on a complex class, from the empty frequency table. -/
theorem fill_structure (nm : String) (a : Attrs) (fs : List (Key × STy))
    (hnd : (fs.map Prod.fst).Nodup) :
    fill (.complex nm a fs) [] =
      (match fs.filter (fun p => 0 < p.2.attrs.min_occurs) with
       | [] => []
       | _ :: _ => [([(STy.complex nm a fs, 0)],
          (fs.filter (fun p => 0 < p.2.attrs.min_occurs)).map
            (fun p => (p.1, 0)))]) := by
  unfold fill
  simp only [get_flat_type_info]
  exact fill_fold_empty _ fs hnd

theorem alGet_head {κ ν : Type} [DecidableEq κ] (k : κ) (v : ν)
    (rest : List (κ × ν)) : alGet ((k, v) :: rest) k = some v := by
  show (if k = k then some v else alGet rest k) = some v
  rw [if_pos rfl]

theorem alGet_mem {κ ν : Type} [DecidableEq κ] (k : κ) (v : ν) :
    ∀ (l : List (κ × ν)), alGet l k = some v → (k, v) ∈ l
  | [], h => by simp [alGet] at h
  | (k2, w) :: rest, h => by
    by_cases he : k = k2
    · subst he
      rw [alGet_head] at h
      cases h
      exact List.mem_cons_self _ _
    · simp only [alGet, he, if_false] at h
      exact List.mem_cons_of_mem _ (alGet_mem k v rest h)

theorem alGet_of_mem_nodup {κ ν : Type} [DecidableEq κ] (k : κ) (v : ν) :
    ∀ (l : List (κ × ν)), (l.map Prod.fst).Nodup → (k, v) ∈ l →
    alGet l k = some v
  | [], _, h => absurd h (List.not_mem_nil _)
  | (k2, w) :: rest, hnd, h => by
    rcases List.mem_cons.mp h with he | hmem
    · cases he
      exact alGet_head k v rest
    · have hnd2 : (k2 :: rest.map Prod.fst).Nodup := by
        simpa using hnd
      have hnc := List.nodup_cons.mp hnd2
      have hne : k ≠ k2 := by
        rintro rfl
        exact hnc.1 (List.mem_map.mpr ⟨(k, v), hmem, rfl⟩)
      simp only [alGet, hne, if_false]
      exact alGet_of_mem_nodup k v rest hnc.2 hmem

/-- The sub-schema pair for the validate-freq skip example: a root
whose only field is a `Sub` class with configurable
`validate_freq`. -/
def exSub (vf : Bool) : STy :=
  .complex "Sub" { validate_freq := vf } [(['z'], exLeaf)]

def exRootF (vf : Bool) : STy := .complex "F" {} [(['b'], exSub vf)]

/-- **C8.** Under soft validation mode, zero-counts are pre-seeded for
every mandatory (`min_occurs > 0`) field of the root schema before key
processing, and after decoding, a mandatory field that was never set
raises a cardinality validation error; under any other validation mode
no frequency bookkeeping is seeded and no cardinality error is raised;
additionally, an entry is skipped entirely when any ancestor class in
its occurrence chain has `validate_freq` disabled. -/
theorem frequency_validation :
    (∀ (nm : String) (a : Attrs) (fs : List (Key × STy)) (k : Key),
      (fs.map Prod.fst).Nodup →
      (match alGet (fill (.complex nm a fs) []) [(STy.complex nm a fs, 0)] with
       | some d => alGet d k
       | none => none) =
      (match alGet fs k with
       | some t => if 0 < t.attrs.min_occurs then some 0 else none
       | none => none)) ∧
    (∀ (P : Prot) (nm : String) (a : Attrs) (fs : List (Key × STy))
        (k₀ : Key) (t₀ : STy) (restM : List (Key × STy)),
      P.validator = .soft → a.validate_freq = true →
      (fs.map Prod.fst).Nodup →
      fs.filter (fun p => 0 < p.2.attrs.min_occurs) = (k₀, t₀) :: restM →
      simple_dict_to_object P (.complex nm a fs) [] =
        .error (DErr.validation k₀)) ∧
    (∀ (P : Prot) (nm : String) (a : Attrs) (fs : List (Key × STy)),
      P.validator ≠ .soft →
      simple_dict_to_object P (.complex nm a fs) [] =
        .ok (get_deserialization_instance (.complex nm a fs))) ∧
    (∀ (ck : CKey) (d : List (Key × Nat)) (p : STy × Nat),
      p ∈ ck → (get_cls_attrs p.1).validate_freq = false →
      validateFreq [(ck, d)] = .ok ()) ∧
    simple_dict_to_object { validator := .soft } (exRootF false)
      [(['b', '.', 'z'], [Tok.txt "t1", Tok.txt "t2"])] =
      .ok (DVal.obj [(['b'], some (DVal.obj [(['z'],
        some (DVal.prim (Tok.txt "t1")))]))]) ∧
    simple_dict_to_object { validator := .soft } (exRootF true)
      [(['b', '.', 'z'], [Tok.txt "t1", Tok.txt "t2"])] =
      .error (DErr.validation ['z']) := by
  refine ⟨?_, ?_, ?_, ?_, ?_, ?_⟩
  · intro nm a fs k hnd
    rw [fill_structure nm a fs hnd]
    cases hfe : fs.filter (fun p => 0 < p.2.attrs.min_occurs) with
    | nil =>
      simp only [alGet]
      cases hg : alGet fs k with
      | none => rfl
      | some t =>
        have hmem := alGet_mem k t fs hg
        have : ¬ (0 < t.attrs.min_occurs) := by
          intro hmand
          have : (k, t) ∈ fs.filter (fun p => 0 < p.2.attrs.min_occurs) :=
            List.mem_filter.mpr ⟨hmem, by simpa using hmand⟩
          rw [hfe] at this
          exact List.not_mem_nil _ this
        simp [this]
    | cons q restF =>
      rw [alGet_head]
      show alGet ((q :: restF).map (fun p => (p.1, (0 : Nat)))) k = _
      rw [← hfe, alGet_map_zero, alGet_filter _ k fs hnd]
      cases hg : alGet fs k with
      | none => rfl
      | some t =>
        by_cases hm : 0 < t.attrs.min_occurs <;> simp [hm]
  · intro P nm a fs k₀ t₀ restM hsoft hvf hnd hfe
    have hmem0 : (k₀, t₀) ∈ fs ∧ 0 < t₀.attrs.min_occurs := by
      have : (k₀, t₀) ∈ fs.filter (fun p => 0 < p.2.attrs.min_occurs) := by
        rw [hfe]; exact List.mem_cons_self _ _
      have h2 := List.mem_filter.mp this
      exact ⟨h2.1, by simpa using h2.2⟩
    have hg : alGet fs k₀ = some t₀ :=
      alGet_of_mem_nodup k₀ t₀ fs hnd hmem0.1
    simp only [simple_dict_to_object, hsoft, if_pos, ite_true]
    rw [fill_structure nm a fs hnd, hfe]
    simp only [List.insertionSort, List.foldlM, except_pure_eq,
      except_bind_ok]
    simp only [validateFreq, List.foldlM, List.map, get_cls_attrs, hvf,
      List.all_cons, List.all_nil, id, Bool.and_true, if_pos, ite_true,
      List.getLast?_singleton, check_freq_dict, List.map_cons,
      get_flat_type_info]
    rw [hg]
    simp [hmem0.2]
  · intro P nm a fs hns
    simp only [simple_dict_to_object, hns, ite_false, if_neg,
      List.insertionSort, List.foldlM, except_pure_eq, except_bind_ok]
  · intro ck d p hp hvf
    have hall : (ck.map
        (fun p => (get_cls_attrs p.1).validate_freq)).all id = false := by
      rw [List.all_eq_false]
      exact ⟨(get_cls_attrs p.1).validate_freq,
        List.mem_map.mpr ⟨p, hp, rfl⟩, by simp [hvf]⟩
    simp [validateFreq, List.foldlM, hall]
  · simp +decide [simple_dict_to_object, processEntry, walkPath, assignLeaf,
      to_native_values, toNativeOne, flattenFields, flattenOne, reSub,
      reSubGo, findIndexes, findIndexesGo, natDigits, digitsVal, joinKey,
      alUpdate, alGet, bumpFreq, fill, exRootF, exSub, exLeaf,
      get_flat_type_info, get_deserialization_instance, getField, setField,
      hopView, get_cls_attrs, validateFreq, check_freq_dict, memberCat,
      issubArray, issubString, issubUnicode, issubFile, issubByteArray,
      bumpMO, List.insertionSort, List.orderedInsert, qualifyErr, s2cmi,
      s2cmiShift, s2cmiMax, dictSet, eater, isSimpleModel]
  · simp +decide [simple_dict_to_object, processEntry, walkPath, assignLeaf,
      to_native_values, toNativeOne, flattenFields, flattenOne, reSub,
      reSubGo, findIndexes, findIndexesGo, natDigits, digitsVal, joinKey,
      alUpdate, alGet, bumpFreq, fill, exRootF, exSub, exLeaf,
      get_flat_type_info, get_deserialization_instance, getField, setField,
      hopView, get_cls_attrs, validateFreq, check_freq_dict, memberCat,
      issubArray, issubString, issubUnicode, issubFile, issubByteArray,
      bumpMO, List.insertionSort, List.orderedInsert, qualifyErr, s2cmi,
      s2cmiShift, s2cmiMax, dictSet, eater, isSimpleModel]

/-- Witness for C8: a root with a mandatory field `q` and an empty
document errors under soft validation. -/
theorem frequency_validation_witness :
    simple_dict_to_object { validator := .soft }
      (.complex "RootM" {} [(['q'], .simple .string { min_occurs := 1 }),
        (['r'], exLeaf)]) [] = .error (DErr.validation ['q']) :=
  frequency_validation.2.1 { validator := .soft } "RootM" {}
    [(['q'], .simple .string { min_occurs := 1 }), (['r'], exLeaf)]
    ['q'] (.simple .string { min_occurs := 1 }) [] rfl rfl (by decide)
    (by simp [exLeaf, STy.attrs, List.filter])

/-! ## C9: the value-coercion pipeline as six spec-side stages -/

/-- Modelled from the spec (§4.2 stage 1): text-decode the token using
the supplied encoding, unless the leaf type is a raw-string/byte
category that bypasses decoding (in the source: the decode happens
exactly when a request encoding is supplied, the value is not None,
the member is Unicode but not a raw String, and the token is not
already text); failure raises a validation error naming the token. -/
def specTextDecode (P : Prot) (member : Member) (orig_k : Key)
    (v0 : Tok) : Except DErr Tok :=
  if v0 ≠ .null ∧ P.hooks.req_enc ∧ ¬ issubString member.type ∧
      issubUnicode member.type ∧ ¬ v0.isText then
    match v0 with
    | .raw bs =>
      match P.hooks.decode_enc bs with
      | some s => .ok (Tok.txt s)
      | none => .error (DErr.validation orig_k)
    | _ => .error DErr.attrError
  else .ok v0

/-- Modelled from the spec (§4.2 stage 2): raw-string-level validation
against the type's validator, only when validation mode is soft;
failure raises a validation error. -/
def specRawValidate (P : Prot) (member : Member) (orig_k : Key)
    (v1 : Tok) : Except DErr Tok :=
  if P.validator = .soft then
    match P.hooks.validate_string member.type v1 with
    | none => .error (DErr.validation orig_k)
    | some false => .error (DErr.validation orig_k)
    | some true => .ok v1
  else .ok v1

/-- Modelled from the spec (§4.2 stage 3): type-specific pre-parse
normalization, a schema-provided hook. -/
def specParse (P : Prot) (member : Member) (v1 : Tok) : Tok :=
  P.hooks.parse (get_cls_attrs member.type) v1

/-- Modelled from the spec (§4.2 stage 4): native conversion — for the
file category a token already carrying a native file-value object
passes through unchanged and any other token goes through the binary
converter, the byte-array category uses the binary converter, and all
other categories use the generic text-to-native converter whose
failures are re-raised carrying the qualified field path. -/
def specNativeConvert (P : Prot) (cls : STy) (member : Member) (k : Key)
    (v2 : Tok) : Except DErr Tok :=
  if issubFile member.type then
    match v2 with
    | .filev f => .ok (Tok.filev f)
    | _ =>
      match P.hooks.from_unicode_bin member.type v2 with
      | .ok t => .ok t
      | .error e => .error (DErr.validation e)
  else if issubByteArray member.type then
    match P.hooks.from_unicode_bin member.type v2 with
    | .ok t => .ok t
    | .error e => .error (DErr.validation e)
  else
    match P.hooks.from_unicode member.type v2 with
    | some t => .ok t
    | none => .error (DErr.validation (qualifyErr cls k))

/-- Modelled from the spec (§4.2 stage 5): post-deserialization
sanitization, a schema-provided hook. -/
def specSanitize (P : Prot) (member : Member) (n : Tok) : Tok :=
  P.hooks.sanitize (get_cls_attrs member.type) n

/-- Modelled from the spec (§4.2 stage 6): native-value validation
against the type's validator, only in soft mode; failure raises a
validation error. -/
def specNativeValidate (P : Prot) (member : Member) (orig_k : Key)
    (n : Tok) : Except DErr Tok :=
  if P.validator = .soft ∧ ¬ P.hooks.validate_native member.type n then
    .error (DErr.validation orig_k)
  else .ok n

/-- **C9.** For every leaf key, `_to_native_values` processes the raw
tokens per token, as the composition of the six spec stages in order
(text-decode, soft-only raw-string validation, pre-parse
normalization, native conversion, sanitization, soft-only native
validation); stages 2 and 6 pass every token through unchanged under
any non-soft validator; a native file-value object passes through
stage 4 unchanged for a file-category member; a text-conversion
failure of any other category surfaces as a validation error carrying
the qualified field path; and the result is the `mapM` of the
per-token body, whose output is aligned 1:1 (same length, same order)
with the input tokens. -/
theorem value_coercion_pipeline :
    (∀ (P : Prot) (cls : STy) (member : Member) (orig_k k : Key)
        (v0 : Tok),
      toNativeOne P cls member orig_k k v0 = do
        let v1 ← specTextDecode P member orig_k v0
        let v1 ← specRawValidate P member orig_k v1
        let n ← specNativeConvert P cls member k (specParse P member v1)
        specNativeValidate P member orig_k (specSanitize P member n)) ∧
    (∀ (P : Prot) (member : Member) (orig_k : Key) (v1 : Tok),
      P.validator ≠ .soft →
      specRawValidate P member orig_k v1 = .ok v1) ∧
    (∀ (P : Prot) (member : Member) (orig_k : Key) (n : Tok),
      P.validator ≠ .soft →
      specNativeValidate P member orig_k n = .ok n) ∧
    (∀ (P : Prot) (cls : STy) (member : Member) (k : Key) (f : Nat),
      issubFile member.type →
      specNativeConvert P cls member k (.filev f) = .ok (.filev f)) ∧
    (∀ (P : Prot) (cls : STy) (member : Member) (k : Key) (v2 : Tok),
      ¬ issubFile member.type → ¬ issubByteArray member.type →
      P.hooks.from_unicode member.type v2 = none →
      specNativeConvert P cls member k v2 =
        .error (DErr.validation (qualifyErr cls k))) ∧
    (∀ (P : Prot) (cls : STy) (member : Member) (orig_k k : Key)
        (v : List Tok),
      to_native_values P cls member orig_k k v =
        v.mapM (toNativeOne P cls member orig_k k)) ∧
    (∀ (P : Prot) (cls : STy) (member : Member) (orig_k k : Key)
        (v out : List Tok),
      to_native_values P cls member orig_k k v = .ok out →
      out.length = v.length) := by
  refine ⟨?_, ?_, ?_, ?_, ?_, ?_, ?_⟩
  · intro P cls member orig_k k v0
    simp only [toNativeOne, specTextDecode, specRawValidate, specParse,
      specNativeConvert, specSanitize, specNativeValidate]
    repeat' first
      | rfl
      | (simp only [except_bind_ok, except_bind_err, except_pure_eq,
          except_throw_eq])
      | (split <;> try rfl)
      | simp_all
  · intro P member orig_k v1 h
    simp [specRawValidate, h]
  · intro P member orig_k n h
    simp [specNativeValidate, h]
  · intro P cls member k f h
    simp [specNativeConvert, h]
  · intro P cls member k v2 h1 h2 h3
    simp [specNativeConvert, h1, h2, h3]
  · intro P cls member orig_k k v
    induction v with
    | nil => rfl
    | cons v0 rest ih =>
      rw [List.mapM_cons]
      simp only [to_native_values, ih]
  · intro P cls member orig_k k v
    induction v with
    | nil =>
      intro out h
      simp only [to_native_values] at h
      cases h
      rfl
    | cons v0 rest ih =>
      intro out h
      simp only [to_native_values] at h
      cases hn : toNativeOne P cls member orig_k k v0 with
      | error e => rw [hn, except_bind_err] at h; cases h
      | ok n =>
        rw [hn, except_bind_ok] at h
        cases hr : to_native_values P cls member orig_k k rest with
        | error e => rw [hr, except_bind_err] at h; cases h
        | ok ns =>
          rw [hr, except_bind_ok, except_pure_eq] at h
          cases h
          simp [ih ns hr]

/-- Witness for C9: with the default (non-soft) protocol, stage 2
passes a concrete token through unchanged. -/
theorem value_coercion_pipeline_witness :
    ({} : Prot).validator ≠ Validator.soft ∧
    specRawValidate {} exMemberX ['s'] (Tok.txt "v") =
      .ok (Tok.txt "v") :=
  ⟨by decide, value_coercion_pipeline.2.1 {} exMemberX ['s'] (Tok.txt "v")
    (by decide)⟩

/-! ## C4: the encoder's identity guard over a heap of instances

The Python encoder walks arbitrary object graphs: instances are
mutable objects with identities (`id(inst)`), two fields can hold the
same instance, and a field can point back at an ancestor.  To settle
the identity-tracking claim the tree values used elsewhere do not
suffice, so the encoder is re-embedded over an explicit heap: an
instance is an address, the heap maps each address to its field
assignments, and a fuel parameter counts the recursion depth
(`none` = the recursion exceeds every finite depth, i.e. the Python
call never returns). -/

/-- A heap value: `None`, a primitive token, a reference to an
instance on the heap, or a Python list of values. -/
inductive HRef where
  | hnone
  | htok (t : Tok)
  | haddr (n : Nat)
  | hlist (vs : List HRef)

mutual

def HRef.decEq : (x y : HRef) → Decidable (x = y)
  | .hnone, .hnone => .isTrue rfl
  | .htok t, .htok t2 =>
    if h : t = t2 then .isTrue (by rw [h])
    else .isFalse (by intro he; cases he; exact h rfl)
  | .haddr n, .haddr n2 =>
    if h : n = n2 then .isTrue (by rw [h])
    else .isFalse (by intro he; cases he; exact h rfl)
  | .hlist vs, .hlist vs2 =>
    match HRef.decEqList vs vs2 with
    | .isTrue hf => .isTrue (by rw [hf])
    | .isFalse hf => .isFalse (by intro he; cases he; exact hf rfl)
  | .hnone, .htok _ => .isFalse (by intro he; cases he)
  | .hnone, .haddr _ => .isFalse (by intro he; cases he)
  | .hnone, .hlist _ => .isFalse (by intro he; cases he)
  | .htok _, .hnone => .isFalse (by intro he; cases he)
  | .htok _, .haddr _ => .isFalse (by intro he; cases he)
  | .htok _, .hlist _ => .isFalse (by intro he; cases he)
  | .haddr _, .hnone => .isFalse (by intro he; cases he)
  | .haddr _, .htok _ => .isFalse (by intro he; cases he)
  | .haddr _, .hlist _ => .isFalse (by intro he; cases he)
  | .hlist _, .hnone => .isFalse (by intro he; cases he)
  | .hlist _, .htok _ => .isFalse (by intro he; cases he)
  | .hlist _, .haddr _ => .isFalse (by intro he; cases he)

def HRef.decEqList : (xs ys : List HRef) → Decidable (xs = ys)
  | [], [] => .isTrue rfl
  | [], _ :: _ => .isFalse (by intro he; cases he)
  | _ :: _, [] => .isFalse (by intro he; cases he)
  | x :: xs, y :: ys =>
    match HRef.decEq x y, HRef.decEqList xs ys with
    | .isTrue ht, .isTrue hl => .isTrue (by rw [ht, hl])
    | .isFalse ht, _ => .isFalse (by intro he; cases he; exact ht rfl)
    | _, .isFalse hl => .isFalse (by intro he; cases he; exact hl rfl)

end

instance : DecidableEq HRef := HRef.decEq

/-- The heap: each instance identity maps to the instance's field
assignments. -/
abbrev Heap := List (Nat × List (Key × HRef))

/-- A spyne class as the encoder sees it, with self-reference through
class names (`named`), so that recursive schemas — which spyne
expresses with `SelfReference` — are expressible.  `Array` members are
covered by the `max_occurs > 1` form of the same branch (source line
369: for a non-`Array` multi-occurrence member, `subtype = v`). -/
inductive HTy where
  | hsimple (a : Attrs)
  | hcomplex (nm : String) (a : Attrs) (fields : List (Key × HTy))
  | named (nm : String)

/-- The classes in scope, by name. -/
abbrev SchemaEnv := List (String × HTy)

/-- Resolve a by-name class reference (one step). -/
def resolveH (senv : SchemaEnv) : HTy → HTy
  | .named nm =>
    match alGet senv nm with
    | some t => t
    | none => .hsimple {}
  | t => t

def HTy.hattrs : HTy → Attrs
  | .hsimple a => a
  | .hcomplex _ a _ => a
  | .named _ => {}

/-- `self.get_cls_attrs(v)` for the heap encoder. -/
def get_cls_attrsH (senv : SchemaEnv) (t : HTy) : Attrs :=
  (resolveH senv t).hattrs

/-- `getattr(inst, k, None)`. -/
def getattrH (env : Heap) (inst : HRef) (k : Key) : HRef :=
  match inst with
  | .haddr n =>
    match alGet env n with
    | some fs =>
      match alGet fs k with
      | some v => v
      | none => .hnone
    | _ => .hnone
  | _ => .hnone

/-- The default `subinst_eater` (`lambda prot, v, t: v`) on a heap
value: a primitive passes through, `None` stays null. -/
def eatH : HRef → Tok
  | .htok t => t
  | _ => Tok.null

/-- `issubclass(subtype, SimpleModel)` for the heap encoder. -/
def isSimpleH (senv : SchemaEnv) (t : HTy) : Bool :=
  match resolveH senv t with
  | .hsimple _ => true
  | _ => false

mutual

/-- `object_to_simple_dict` (source lines 330-407) over the heap
model.  `tags = none` is the top-level call: line 346 initializes the
set to `{id(inst)}`; at a recursive call (`tags` given) line 349
returns `retval` unchanged when `id(inst)` is already in the set, and
the set is never extended anywhere.  Line 343 returns early for a
`None` instance of a `min_occurs = 0` class.  A complex class walks
its flat type info (lines 355-396): a multi-occurrence member with a
non-`None` value emits one repeated key for a simple subtype (lines
373-378) and recurses once per element under bracketed keys for a
complex subtype (lines 382-388), writing the `empty` marker when the
list was empty (lines 390-392); every other member recurses directly
(line 395).  A non-complex class writes the leaf under the joined
prefix, raising `ValueError` on a key collision (lines 398-405).
`fuel` bounds the recursion depth: each recursive call of the source
consumes one unit, and `none` means no finite depth suffices. -/
def encodeH (senv : SchemaEnv) (env : Heap) :
    Nat → HTy → HRef → List (Key × DocVal) → List Key →
    Option (List Nat) → Option (Except DErr (List (Key × DocVal)))
  | 0, _, _, _, _, _ => none
  | fuel + 1, cls0, inst, retval, pfx, tags =>
    let cls := resolveH senv cls0
    if inst = .hnone ∧ cls.hattrs.min_occurs = 0 then some (.ok retval)
    else
      let revisit : Bool :=
        match tags, inst with
        | some ts, .haddr n => decide (n ∈ ts)
        | _, _ => false
      if revisit then some (.ok retval)
      else
        let tags2 : List Nat :=
          match tags, inst with
          | none, .haddr n => [n]
          | none, _ => []
          | some ts, _ => ts
        match cls with
        | .hcomplex _ _ fs =>
          encodeHFields senv env fuel fs inst retval pfx tags2
        | _ =>
          let key := joinKey pfx
          if (alGet retval key).isSome then
            some (.error (DErr.valueError key))
          else some (.ok (dictSet retval key (.one (eatH inst))))
termination_by fuel _ _ _ _ _ => (fuel, 0, 0)

/-- The `for k, v in fti.items()` loop of lines 355-396, threading
`retval` and propagating errors and non-termination. -/
def encodeHFields (senv : SchemaEnv) (env : Heap) (fuel : Nat) :
    List (Key × HTy) → HRef → List (Key × DocVal) → List Key →
    List Nat → Option (Except DErr (List (Key × DocVal)))
  | [], _, retval, _, _ => some (.ok retval)
  | (k, v) :: rest, inst, retval, pfx, tags =>
    let npfx := pfx ++ [k]
    let subinst := getattrH env inst k
    let step :=
      if 1 < (get_cls_attrsH senv v).max_occurs ∧ subinst ≠ .hnone then
        if isSimpleH senv v then
          match subinst with
          | .hlist es =>
            some (.ok (dictSet retval (joinKey npfx) (.many (es.map eatH))))
          | _ => some (.error DErr.attrError)
        else
          match subinst with
          | .hlist [] =>
            some (.ok (dictSet retval (joinKey npfx)
              (.one (Tok.txt "empty"))))
          | .hlist es => encodeHElems senv env fuel v es retval pfx k 0 tags
          | _ => some (.error DErr.attrError)
      else encodeH senv env fuel v subinst retval npfx (some tags)
    match step with
    | none => none
    | some (.error e) => some (.error e)
    | some (.ok r2) => encodeHFields senv env fuel rest inst r2 pfx tags
termination_by fs _ _ _ _ => (fuel, 2, fs.length)

/-- The `for i, ssv in enumerate(subinst)` loop of lines 384-388:
each element recurses under the bracketed key. -/
def encodeHElems (senv : SchemaEnv) (env : Heap) (fuel : Nat)
    (subtype : HTy) :
    List HRef → List (Key × DocVal) → List Key → Key → Nat →
    List Nat → Option (Except DErr (List (Key × DocVal)))
  | [], retval, _, _, _, _ => some (.ok retval)
  | ssv :: more, retval, pfx, lastp, i, tags =>
    let bk := lastp ++ '[' :: natDigits i ++ [']']
    match encodeH senv env fuel subtype ssv retval (pfx ++ [bk])
        (some tags) with
    | none => none
    | some (.error e) => some (.error e)
    | some (.ok r2) =>
      encodeHElems senv env fuel subtype more r2 pfx lastp (i + 1) tags
termination_by es _ _ _ _ _ => (fuel, 1, es.length)

end

/-- The shared-sub-instance heap: the root (identity 0) holds the same
instance (identity 1) under both fields `p` and `q`. -/
def exShareHeap : Heap :=
  [(0, [(['p'], .haddr 1), (['q'], .haddr 1)]),
   (1, [(['x'], .htok (Tok.txt "v"))])]

def exShareSub : HTy := .hcomplex "S" {} [(['x'], .hsimple {})]

def exShareRoot : HTy :=
  .hcomplex "R" {} [(['p'], exShareSub), (['q'], exShareSub)]

/-- The self-referencing root: identity 0's field `s` holds identity 0
itself. -/
def exSelfSEnv : SchemaEnv :=
  [("A", .hcomplex "A" {} [(['x'], .hsimple {}), (['s'], .named "A")])]

def exSelfHeap : Heap :=
  [(0, [(['x'], .htok (Tok.txt "v")), (['s'], .haddr 0)])]

/-- A cycle that avoids the root: the root (identity 0) holds identity
1, whose field `b` holds identity 1 itself. -/
def exCycSEnv : SchemaEnv :=
  [("R", .hcomplex "R" {} [(['c'], .named "A")]),
   ("A", .hcomplex "A" {} [(['b'], .named "A")])]

def exCycHeap : Heap :=
  [(0, [(['c'], .haddr 1)]), (1, [(['b'], .haddr 1)])]

/-- Once inside the non-root cycle, no fuel suffices: the guard set
holds only the root's identity, so the revisit check never fires. -/
theorem encodeH_cyc_aux :
    ∀ (fuel : Nat) (retval : List (Key × DocVal)) (pfx : List Key),
    encodeH exCycSEnv exCycHeap fuel (.named "A") (.haddr 1) retval pfx
      (some [0]) = none := by
  intro fuel
  induction fuel with
  | zero => intro r p; simp [encodeH]
  | succ f ih =>
    intro r p
    have ih2 := ih
    simp only [exCycSEnv, exCycHeap] at ih2
    simp [encodeH, encodeHFields, resolveH, exCycSEnv, exCycHeap,
      getattrH, get_cls_attrsH, HTy.hattrs, isSimpleH, alGet, ih2]

/-- Counterexample to C4: the visited set is never extended past the
top-level instance, so a sub-instance shared by two fields (here
identity 1, reachable as both `p` and `q` of the root) is emitted
under **both** paths, not only under the first-encountered one. -/
theorem identity_tracking_counterexample :
    getattrH exShareHeap (.haddr 0) ['p'] =
      getattrH exShareHeap (.haddr 0) ['q'] ∧
    encodeH [] exShareHeap 5 exShareRoot (.haddr 0) [] [] none =
      some (.ok [(['p', '.', 'x'], .one (Tok.txt "v")),
                 (['q', '.', 'x'], .one (Tok.txt "v"))]) := by
  constructor
  · rfl
  · simp +decide [encodeH, encodeHFields, encodeHElems, resolveH,
      getattrH, get_cls_attrsH, HTy.hattrs, isSimpleH, eatH, alGet,
      alUpdate, dictSet, joinKey, exShareHeap, exShareRoot, exShareSub]

/-- **C4 (amended).** `object_to_simple_dict` initializes the visited
set to the top-level instance's identity alone and never extends it:
re-encountering the top-level identity at any recursive call is a
no-op, so a graph whose only back-edges point at the top-level
instance terminates, emitting the top-level instance's other fields
and nothing under the self-referencing field; but a cycle that avoids
the top-level instance exhausts every recursion depth (the original
claim's "every cyclic object graph terminates" fails, as does
"a shared sub-instance is emitted only under the first-encountered
path"). -/
theorem identity_tracking :
    (∀ (senv : SchemaEnv) (env : Heap) (fuel : Nat) (cls : HTy)
        (n : Nat) (retval : List (Key × DocVal)) (pfx : List Key)
        (ts : List Nat),
      n ∈ ts →
      encodeH senv env (fuel + 1) cls (.haddr n) retval pfx (some ts) =
        some (.ok retval)) ∧
    (∀ (f : Nat),
      encodeH exSelfSEnv exSelfHeap (f + 2) (.named "A") (.haddr 0)
        [] [] none =
        some (.ok [(['x'], .one (Tok.txt "v"))])) ∧
    (∀ (fuel : Nat),
      encodeH exCycSEnv exCycHeap fuel (.named "R") (.haddr 0) [] []
        none = none) := by
  refine ⟨?_, ?_, ?_⟩
  · intro senv env fuel cls n retval pfx ts h
    simp [encodeH, h]
  · intro f
    simp +decide [encodeH, encodeHFields, encodeHElems, resolveH,
      getattrH, get_cls_attrsH, HTy.hattrs, isSimpleH, eatH, alGet,
      alUpdate, dictSet, joinKey, exSelfSEnv, exSelfHeap]
  · intro fuel
    cases fuel with
    | zero => simp [encodeH]
    | succ f =>
      have ha := fun r p => encodeH_cyc_aux f r p
      simp only [exCycSEnv, exCycHeap] at ha
      simp [encodeH, encodeHFields, resolveH, exCycSEnv, exCycHeap,
        getattrH, get_cls_attrsH, HTy.hattrs, isSimpleH, alGet, ha]

/-- Witness for C4: revisiting the identity `0` already in the visited
set is a no-op at a concrete call. -/
theorem identity_tracking_witness :
    (0 : Nat) ∈ [0] ∧
    encodeH [] [] 3 (.hsimple {}) (.haddr 0) [] [] (some [0]) =
      some (.ok []) :=
  ⟨by decide,
    identity_tracking.1 [] [] 2 (.hsimple {}) 0 [] [] [0] (by decide)⟩

/-! ## C1: the round trip -/

end Spyne
